import Mathlib

/-!
Verification of the bulk-ocr chunk-and-dedup core.

A shallow embedding, in Lean 4, of the deduplication and text-pipeline core of
the `bulk-ocr` repository (packages `internal/text` and `internal/dedupe`),
together with theorems settling the specification claims about it.

Modelling conventions, used throughout:

* A Go `string` is modelled as `GoStr := List Nat`, its sequence of UTF-8
  bytes.  All byte-oriented operations of the source (`len`, slicing for
  k-grams and previews, FNV-1a hashing) are therefore exact.  The pattern
  characters of the regexes involved (`\n`, `\s`, space, tab) are all ASCII,
  and no ASCII byte occurs inside a multi-byte UTF-8 sequence, so byte-level
  scanning coincides with Go's rune-level regex scanning.
* The Go standard library's Unicode character classes (`unicode.IsLetter`,
  `unicode.IsDigit`, `strings.ToLower`) are modelled by their exact ASCII
  fragments (`goIsLetter`, `goIsDigit`, `goToLower`); `unicode.IsSpace` is
  modelled by the full Unicode `White_Space` set restricted to the ASCII
  range plus the byte values below 0x80 (the only ones a byte-level model
  can see).  Every concrete input used to settle a claim is ASCII, where
  the model agrees with Go exactly.
* Go `int` is modelled as `Int` wherever the source uses `int`.
* Go maps are modelled as association lists processed in insertion order;
  every verified statement about them is insensitive to iteration order
  (Go's map iteration order is unspecified).
-/

/-- A Go string, as its sequence of UTF-8 byte values. -/

abbrev GoStr := List Nat

/-- `internal/text.Chunk`: a text chunk with original and normalized text. -/

structure Chunk where
  id : GoStr
  text : GoStr
  norm : GoStr
  index : Int
deriving DecidableEq, Repr

/-! ## SimHash signature computation (`internal/dedupe`) -/

/-- FNV-1a 64-bit offset basis (`fnvOffsetBasis64` in the source). -/

def fnvOffsetBasis64 : Nat := 14695981039346656037

/-- FNV-1a 64-bit prime (`fnvPrime64` in the source). -/

def fnvPrime64 : Nat := 1099511628211

/-- `fnv1a64`: FNV-1a 64-bit hash of a byte sequence.  `uint64` arithmetic is
modelled as `Nat` with an explicit reduction modulo `2 ^ 64` after the
multiplication (xor of values below `2 ^ 64` stays below `2 ^ 64`). -/

def fnv1a64 (data : GoStr) : Nat :=
  data.foldl (fun h b => ((h ^^^ b) * fnvPrime64) % 2 ^ 64) fnvOffsetBasis64

/-- `generateKgrams`: all contiguous `k`-byte slices of `text`.  The source
loop `for i := 0; i <= len(text)-k; i++ { append(text[i:i+k]) }` produces the
slice at each `i` in `[0, len(text)-k]`, i.e. `len(text)-k+1` slices. -/

def generateKgrams (text : GoStr) (k : Int) : List GoStr :=
  if k ≤ 0 ∨ (text.length : Int) < k then []
  else (List.range (text.length - k.toNat + 1)).map fun i => (text.drop i).take k.toNat

/-- Bit `i` of `h`, as Go's `h&(1<<i) != 0`. -/

def bitOf (h : Nat) (i : Nat) : Bool := h / 2 ^ i % 2 = 1

/-- The final value of `vector[i]` in `simhash64`: the source folds over the
k-grams, incrementing `vector[i]` when bit `i` of the k-gram's hash is set and
decrementing it otherwise.  The source updates all 64 entries inside one loop
over the k-grams; folding per entry is the same computation re-indexed. -/

def vectorCount (kgrams : List GoStr) (i : Nat) : Int :=
  kgrams.foldl (fun v kg => if bitOf (fnv1a64 kg) i then v + 1 else v - 1) 0

/-- `simhash64`: SimHash signature over byte k-grams.  `signature |= 1 << i`
(each `i` distinct, starting from 0) is the sum of `2 ^ i` over set bits. -/

def simhash64 (text : GoStr) (k : Int) : Nat :=
  if text = [] ∨ k ≤ 0 then 0
  else
    let kgrams := generateKgrams text k
    if kgrams = [] then 0
    else (List.range 64).foldl (fun sig i => if vectorCount kgrams i > 0 then sig + 2 ^ i else sig) 0

/-- `bits.OnesCount64`, for values below `2 ^ 64`: the number of set bits
among positions `0 ≤ i < 64`. -/

def onesCount64 (x : Nat) : Nat := ((List.range 64).filter fun i => bitOf x i).length

/-- `hammingDistance`: population count of the xor of two signatures. -/

def hammingDistance (a b : Nat) : Nat := onesCount64 (a ^^^ b)

/-! ## Dedup data model (`internal/dedupe`) -/

/-- `dedupe.DroppedChunk`: a forensic record for a removed chunk. -/

structure DroppedChunk where
  chunkId : GoStr
  reason : String
  matchedChunkId : GoStr
  distance : Int
  preview : GoStr
deriving DecidableEq, Repr

/-- `dedupe.Stats`. -/

structure Stats where
  inputCount : Int
  keptCount : Int
  droppedCount : Int
  exactDups : Int
  nearDups : Int
deriving DecidableEq, Repr

/-- `dedupe.DedupeResult`. -/

structure DedupeResult where
  keptChunks : List Chunk
  dropped : List DroppedChunk
  stats : Stats
deriving DecidableEq, Repr

/-- `dedupe.Config`. -/

structure Config where
  method : String
  simHashK : Int
  simHashThreshold : Int
  window : Int
deriving DecidableEq, Repr

/-- `Config.Validate`: sequential clamping of out-of-range values in the
source's order.  The source mutates the fields in place one check at a time;
the checks touch distinct fields except for the two threshold clamps, which
are chained here exactly as in the source. -/

def Config.validate (c : Config) : Config :=
  let k := if c.simHashK ≤ 0 then 5 else c.simHashK
  let t1 := if c.simHashThreshold < 0 then 6 else c.simHashThreshold
  let t := if t1 > 64 then 64 else t1
  let w := if c.window < 0 then 250 else c.window
  let m := if c.method ≠ "exact" ∧ c.method ≠ "simhash" ∧ c.method ≠ "both" then "simhash"
    else c.method
  ⟨m, k, t, w⟩

/-- The 200-byte preview truncation applied to dropped chunks' text:
`if len(preview) > 200 { preview = preview[:200] + "..." }`. -/

def truncPreview (t : GoStr) : GoStr :=
  if 200 < t.length then t.take 200 ++ [46, 46, 46] else t

/-! ## Exact-hash dedup

The source hashes `chunk.Norm` with SHA-1 and keys the `seen` map by the hex
digest; only equality of digests is ever tested, so the digest is modelled as
the normalized byte string itself (SHA-1 collisions are not modelled).  The
`seen` Go map (digest to first-seen chunk id) is an association list. -/

/-- Lookup in the modelled `seen` map. -/

def seenLookup (seen : List (GoStr × GoStr)) (h : GoStr) : Option GoStr :=
  match seen.find? fun e => e.1 = h with
  | some e => some e.2
  | none => none

/-- The loop of `exactHashDedupe`, processing the chunks in order with the
accumulated `seen` map. -/

def exactGo : List Chunk → List (GoStr × GoStr) → List Chunk × List DroppedChunk
  | [], _ => ([], [])
  | c :: rest, seen =>
    if c.norm = [] then
      -- empty normalized text is kept unconditionally and not recorded
      let r := exactGo rest seen
      (c :: r.1, r.2)
    else
      match seenLookup seen c.norm with
      | some existingId =>
        let r := exactGo rest seen
        (r.1, ⟨c.id, "exact_duplicate", existingId, 0, truncPreview c.text⟩ :: r.2)
      | none =>
        let r := exactGo rest ((c.norm, c.id) :: seen)
        (c :: r.1, r.2)

/-- `exactHashDedupe`: remove exact duplicates of the normalized text,
keeping the first occurrence. -/

def exactHashDedupe (chunks : List Chunk) : List Chunk × List DroppedChunk :=
  if chunks = [] then ([], []) else exactGo chunks []

/-! ## SimHash near-duplicate dedup -/

/-- The state of `simhashDedupe`'s loop: the kept chunks, the parallel list of
their signatures, and the dropped records so far. -/

structure SimState where
  kept : List Chunk
  keptSigs : List Nat
  dropped : List DroppedChunk
deriving DecidableEq, Repr

/-- The inner comparison loop of `simhashDedupe`
(`for j := windowStart; j < len(kept); j++`), over the window's
(chunk, signature) pairs, threading `(matched, matchedChunkID, minDistance)`.
A comparison updates the state when `dist <= threshold && dist < minDistance`. -/

def scanWindow (threshold : Int) (sig : Nat) :
    List (Chunk × Nat) → Bool × GoStr × Int → Bool × GoStr × Int
  | [], st => st
  | p :: rest, (matched, mid, minD) =>
    let dist : Int := hammingDistance sig p.2
    if dist ≤ threshold ∧ dist < minD then scanWindow threshold sig rest (true, p.1.id, dist)
    else scanWindow threshold sig rest (matched, mid, minD)

/-- The start of the comparison window:
`windowStart = len(kept) - windowSize if len(kept) > windowSize else 0`
(never negative: when `windowSize < 0`, `len(kept) - windowSize > len(kept)`
and the loop below it is empty). -/

def windowStart (keptLen : Nat) (windowSize : Int) : Nat :=
  (if (keptLen : Int) > windowSize then (keptLen : Int) - windowSize else 0).toNat

/-- One iteration of `simhashDedupe`'s outer loop on chunk `c`. -/

def simhashStep (cfg : Config) (windowSize : Int) (st : SimState) (c : Chunk) : SimState :=
  let sig := simhash64 c.norm cfg.simHashK
  let range := (st.kept.zip st.keptSigs).drop (windowStart st.kept.length windowSize)
  match scanWindow cfg.simHashThreshold sig range (false, [], 65) with
  | (true, mid, minD) =>
    { st with dropped := st.dropped ++ [⟨c.id, "near_duplicate", mid, minD, truncPreview c.text⟩] }
  | (false, _, _) =>
    { st with kept := st.kept ++ [c], keptSigs := st.keptSigs ++ [sig] }

/-- `simhashDedupe`: remove near-duplicates using SimHash with a sliding
window.  The source precomputes `signatures[i] = simhash64(chunks[i].Norm, k)`
and then loops; computing each signature at its loop iteration is the same
computation.  `windowSize` is `len(chunks)` when `config.Window == 0`. -/

def simhashDedupe (chunks : List Chunk) (config : Config) : List Chunk × List DroppedChunk :=
  if chunks = [] then ([], [])
  else
    let windowSize : Int := if config.window = 0 then (chunks.length : Int) else config.window
    let final := chunks.foldl (simhashStep config windowSize) ⟨[], [], []⟩
    (final.kept, final.dropped)

/-! ## Orchestrator -/

/-- Membership of a chunk id in a kept list, modelling the Go
`map[string]bool` built from the kept chunks (`m[c.ID] = true`; a lookup is a
membership test). -/

def keptIdMem (kept : List Chunk) (id : GoStr) : Bool :=
  kept.any fun c => c.id = id

/-- One insertion into the modelled `droppedMap`: replace the entry with the
same `chunk_id` when the new record's distance is strictly smaller
(`!exists || d.Distance < existing.Distance`), insert otherwise. -/

def insertDropped : List DroppedChunk → DroppedChunk → List DroppedChunk
  | [], d => [d]
  | e :: rest, d =>
    if e.chunkId = d.chunkId then (if d.distance < e.distance then d else e) :: rest
    else e :: insertDropped rest d

/-- The `droppedMap` merge of `Dedupe`'s `both` branch: fold all dropped
records into a map keyed by `chunk_id`.  The Go map's iteration order is
unspecified; the model emits values in first-insertion key order, and every
verified statement about the merge is order-insensitive. -/

def mergeDropped (l : List DroppedChunk) : List DroppedChunk :=
  l.foldl insertDropped []

/-- The reason-counting pass at the end of `Dedupe`. -/

def countReason (dropped : List DroppedChunk) (r : String) : Int :=
  ((dropped.filter fun d => d.reason = r).length : Int)

/-- `dedupe.Dedupe`: validate the config, dispatch on the method, and
recompute statistics from the final dropped list. -/

def Dedupe (chunks : List Chunk) (config : Config) : DedupeResult :=
  let cfg := config.validate
  if chunks = [] then ⟨[], [], ⟨0, 0, 0, 0, 0⟩⟩
  else
    let kd : List Chunk × List DroppedChunk :=
      if cfg.method = "exact" then exactHashDedupe chunks
      else if cfg.method = "simhash" then
        let e := exactHashDedupe chunks
        let s := simhashDedupe e.1 cfg
        (s.1, e.2 ++ s.2)
      else if cfg.method = "both" then
        let e := exactHashDedupe chunks
        let s := simhashDedupe chunks cfg
        let bothKept := chunks.filter fun c => keptIdMem e.1 c.id && keptIdMem s.1 c.id
        (bothKept, mergeDropped (e.2 ++ s.2))
      else
        -- the switch's default branch (unreachable after Validate)
        let e := exactHashDedupe chunks
        let s := simhashDedupe e.1 cfg
        (s.1, e.2 ++ s.2)
    ⟨kd.1, kd.2,
      ⟨(chunks.length : Int), (kd.1.length : Int), (kd.2.length : Int),
        countReason kd.2 "exact_duplicate", countReason kd.2 "near_duplicate"⟩⟩

/-! ## The windowed comparison, as the specification words it (§4.5)

`specSimhashDedupe` below is written from the specification's words, to be
compared with `simhashDedupe` (which is written from the source):  for each
chunk, the comparison range is the last `W` entries of the kept/signature
list where `W = window if window > 0 else len(kept)`; `min_dist` is the
minimum Hamming distance over that range; the chunk is kept when the range is
empty or `min_dist > threshold`, and otherwise dropped against the earliest
kept entry achieving `min_dist`; a kept chunk and its signature are appended
only after the comparison. -/

/-- Minimum of a list of naturals (`none` for the empty list). -/

def minNat? : List Nat → Option Nat
  | [] => none
  | x :: xs =>
    match minNat? xs with
    | none => some x
    | some m => some (min x m)

/-- The spec's window width: `window` when positive, all kept entries else. -/

def specWindowSize (window : Int) (keptLen : Nat) : Nat :=
  if window > 0 then window.toNat else keptLen

/-- The last `w` entries of the kept/signature list. -/

def specRange (pairs : List (Chunk × Nat)) (w : Nat) : List (Chunk × Nat) :=
  pairs.drop (pairs.length - w)

/-- One chunk of the spec-side near-duplicate pass (see §4.5's words above). -/

def specStep (cfg : Config) (st : List (Chunk × Nat) × List DroppedChunk) (c : Chunk) :
    List (Chunk × Nat) × List DroppedChunk :=
  let sig := simhash64 c.norm cfg.simHashK
  let range := specRange st.1 (specWindowSize cfg.window st.1.length)
  match minNat? (range.map fun p => hammingDistance sig p.2) with
  | none => (st.1 ++ [(c, sig)], st.2)
  | some m =>
    if (m : Int) ≤ cfg.simHashThreshold then
      match range.find? fun p => hammingDistance sig p.2 == m with
      | some p => (st.1, st.2 ++ [⟨c.id, "near_duplicate", p.1.id, (m : Int), truncPreview c.text⟩])
      | none => (st.1 ++ [(c, sig)], st.2)
    else (st.1 ++ [(c, sig)], st.2)

/-- The spec-side near-duplicate pass over the whole chunk sequence. -/

def specSimhashDedupe (chunks : List Chunk) (cfg : Config) :
    List Chunk × List DroppedChunk :=
  let final := chunks.foldl (specStep cfg) ([], [])
  (final.1.map Prod.fst, final.2)

/-- Concrete state for the C10 witness: one kept chunk with signature 0. -/

def c10State : SimState := ⟨[⟨[1], [97], [97], 0⟩], [0], []⟩

/-- Concrete configuration for the C10 witness. -/

def c10Cfg : Config := ⟨"simhash", 5, 6, 250⟩

/-- Concrete chunk for the C10 witness: its normalized form has 2 < 5 bytes. -/

def c10Chunk : Chunk := ⟨[2], [98, 99], [98, 99], 1⟩

/-! ## The SimHash signature, as §4.5's formula words it (claim C4) -/

/-- The spec's k-grams: all `|s| - k + 1` contiguous `k`-byte slices. -/

def specKgrams (s : GoStr) (k : Nat) : List GoStr :=
  (List.range (s.length - k + 1)).map fun i => (s.drop i).take k

/-- The spec's 64-entry tally vector, entry `i`: the number of k-gram hashes
with bit `i` set minus the number with bit `i` clear. -/

def specTally (grams : List GoStr) (i : Nat) : Int :=
  ((grams.filter fun g => bitOf (fnv1a64 g) i).length : Int)
    - ((grams.filter fun g => ! bitOf (fnv1a64 g) i).length : Int)

/-- The spec's signature: bit `i` is 1 iff the tally entry `i` is strictly
positive. -/

def specSimhash (s : GoStr) (k : Nat) : Nat :=
  (List.range 64).foldl
    (fun sig i => if specTally (specKgrams s k) i > 0 then sig + 2 ^ i else sig) 0

/-- Concrete input for the C2 witness: an exact duplicate pair and a distinct
chunk, with pairwise-distinct ids. -/

def c2Chunks : List Chunk :=
  [⟨[1], [97], [97], 0⟩, ⟨[2], [97], [97], 1⟩, ⟨[3], [98, 99], [98, 99], 2⟩]

/-- Concrete configuration for the C2 witness. -/

def c2Cfg : Config := ⟨"both", 1, 0, 0⟩

/-! ## The text package: character classes

The claims settled below are all settled on ASCII inputs, where the byte
model agrees with Go exactly; the Unicode character classes of the Go
standard library are modelled by their ASCII fragments. -/

/-- `strings.ToLower`, on the ASCII range (identity above it). -/

def goToLower (c : Nat) : Nat := if 65 ≤ c ∧ c ≤ 90 then c + 32 else c

/-- `unicode.IsLetter`, on the ASCII range. -/

def goIsLetter (c : Nat) : Bool := (65 ≤ c ∧ c ≤ 90) ∨ (97 ≤ c ∧ c ≤ 122)

/-- `unicode.IsDigit`, on the ASCII range. -/

def goIsDigit (c : Nat) : Bool := 48 ≤ c ∧ c ≤ 57

/-- `unicode.IsSpace`, on the ASCII range. -/

def goIsSpace (c : Nat) : Bool := c = 9 ∨ c = 10 ∨ c = 11 ∨ c = 12 ∨ c = 13 ∨ c = 32

/-- Go RE2's `\s` class: `[\t\n\f\r ]`. -/

def isSpaceRe (c : Nat) : Bool := c = 9 ∨ c = 10 ∨ c = 12 ∨ c = 13 ∨ c = 32

/-- The `[ \t]` class of `Normalize`'s space-collapsing regex. -/

def isSpaceTab (c : Nat) : Bool := c = 32 ∨ c = 9

/-- The `\n` class of `Normalize`'s newline-collapsing regex. -/

def isNL (c : Nat) : Bool := c = 10

/-- The code points `Normalize` retains: letters, digits, space, line feed. -/

def keepRune (c : Nat) : Bool := goIsLetter c || goIsDigit c || c = 32 || c = 10

/-- `strings.TrimSpace`: drop leading and trailing whitespace. -/

def trimSpace (l : GoStr) : GoStr :=
  ((l.dropWhile goIsSpace).reverse.dropWhile goIsSpace).reverse

/-- The scanner behind `collapseRuns`: the Boolean state records whether the
scanner is inside a run of `p`-characters (whose first character already
emitted `rep`). -/

def collapseRunsAux (p : Nat → Bool) (rep : Nat) : Bool → GoStr → GoStr
  | _, [] => []
  | true, c :: rest =>
    if p c then collapseRunsAux p rep true rest
    else c :: collapseRunsAux p rep false rest
  | false, c :: rest =>
    if p c then rep :: collapseRunsAux p rep true rest
    else c :: collapseRunsAux p rep false rest

/-- `regexp.ReplaceAllString` for a one-class-plus pattern (`[ \t]+`, `\n+`):
each maximal run of `p`-characters becomes the single character `rep`. -/

def collapseRuns (p : Nat → Bool) (rep : Nat) (l : GoStr) : GoStr :=
  collapseRunsAux p rep false l

/-- `text.Normalize`: lowercase, collapse space/tab runs to one space,
collapse newline runs to one newline, drop all code points that are not
letters, digits, space or newline, and trim surrounding whitespace — in the
source's order. -/

def Normalize (raw : GoStr) : GoStr :=
  if raw = [] then []
  else
    trimSpace
      ((collapseRuns isNL 10 (collapseRuns isSpaceTab 32 (raw.map goToLower))).filter keepRune)

/-- A canonical string: all characters kept by the filter and fixed under
lowercasing, no two adjacent space/tab characters, no two adjacent newlines,
and no leading or trailing whitespace.  `Normalize` is the identity on
canonical strings, and two applications of `Normalize` always produce one. -/

def CanonStr (w : GoStr) : Prop :=
  (∀ c ∈ w, keepRune c = true ∧ goToLower c = c)
  ∧ w.Chain' (fun a b => ¬(isSpaceTab a = true ∧ isSpaceTab b = true))
  ∧ w.Chain' (fun a b => ¬(isNL a = true ∧ isNL b = true))
  ∧ (∀ h, w.head? = some h → goIsSpace h = false)
  ∧ (∀ h, w.getLast? = some h → goIsSpace h = false)

/-! ## Chunking (`ChunkText`, `internal/pipeline`)

`ChunkText` splits on the regular expression `\n\s*\n+` via
`regexp.Split(text, -1)`.  Go's regexp engine finds successive leftmost
matches; for this pattern a match starts at position `i` iff `text[i]` is a
newline and the maximal `\s`-run following it contains another newline, and
— `\s*` being greedy and backtracked longest-first before the greedy `\n+` —
the match extends exactly through the last newline of that run.  `splitBlank`
implements that scan directly: in skip mode it consumes whitespace while the
remaining maximal `\s`-run still contains a newline. -/

def hasNLRun (l : GoStr) : Bool := (l.takeWhile isSpaceRe).contains 10

def splitBlankAux : Bool → GoStr → GoStr → List GoStr
  | _, cur, [] => [cur.reverse]
  | false, cur, c :: rest =>
    if c = 10 ∧ hasNLRun rest = true then cur.reverse :: splitBlankAux true [] rest
    else splitBlankAux false (c :: cur) rest
  | true, cur, c :: rest =>
    if hasNLRun (c :: rest) = true then splitBlankAux true cur rest
    else splitBlankAux false (c :: cur) rest

def splitBlank (text : GoStr) : List GoStr := splitBlankAux false [] text

/-- Decimal digits of `n` (most significant first), with explicit fuel so the
recursion is structural; `n + 1` steps always suffice. -/

def decDigitsAux : Nat → Nat → GoStr
  | 0, _ => []
  | _ + 1, 0 => []
  | fuel + 1, n + 1 => decDigitsAux fuel ((n + 1) / 10) ++ [48 + (n + 1) % 10]

def decDigits (n : Nat) : GoStr := if n = 0 then [48] else decDigitsAux (n + 1) n

/-- `fmt.Sprintf("c%04d", n)`: the letter `c` followed by the decimal form of
`n` left-padded with zeros to at least four digits. -/

def cId (n : Nat) : GoStr :=
  99 :: (List.replicate (4 - (decDigits n).length) 48 ++ decDigits n)

def segmentChunks (minChars : Int) : List GoStr → Nat → List Chunk
  | [], _ => []
  | seg :: rest, idx =>
    if (((trimSpace seg).length : Int) < minChars) then segmentChunks minChars rest idx
    else ⟨cId (idx + 1), trimSpace seg, Normalize (trimSpace seg), (idx : Int)⟩
      :: segmentChunks minChars rest (idx + 1)

def ChunkText (text : GoStr) (minChars : Int) : List Chunk :=
  if text = [] then []
  else
    if segmentChunks minChars (splitBlank text) 0 = []
        ∧ minChars ≤ ((trimSpace text).length : Int) then
      [⟨cId 1, trimSpace text, Normalize (trimSpace text), 0⟩]
    else segmentChunks minChars (splitBlank text) 0

/-- The transformation the claim applies before chunking: every `\r\n` pair and
every remaining lone `\r` becomes `\n`. -/

def replaceCRLF : GoStr → GoStr
  | [] => []
  | [c] => if c = 13 then [10] else [c]
  | c :: d :: rest =>
    if c = 13 then
      if d = 10 then 10 :: replaceCRLF rest
      else 10 :: replaceCRLF (d :: rest)
    else c :: replaceCRLF (d :: rest)

/-! ## Chrome filtering (`FilterChrome`, `internal/pipeline`)

A pattern is modeled as `Option (GoStr → Bool)`: `none` is a pattern string
that fails to compile, `some re` a compiled regexp together with its
`MatchString` predicate.  `FilterChrome` returns no error in the source; a
failed compile is simply skipped by the compile loop. -/

def compilePatterns : List (Option (GoStr → Bool)) → List (GoStr → Bool)
  | [] => []
  | none :: rest => compilePatterns rest
  | some re :: rest => re :: compilePatterns rest

def FilterChrome (chunks : List Chunk) (patterns : List (Option (GoStr → Bool)))
    (maxLength : Int) : List Chunk :=
  if patterns.length = 0 then chunks
  else chunks.filter fun ch =>
    ! (decide ((ch.norm.length : Int) < maxLength)
        && (compilePatterns patterns).any fun re => re ch.norm)

/-! ## Markdown rendering and writing (`internal/pipeline`) -/

/-- The default title, `"Extracted Notes"`. -/

def defaultTitle : GoStr := [69, 120, 116, 114, 97, 99, 116, 101, 100, 32, 78, 111, 116, 101, 115]

/-- One chunk's contribution: an optional `<!-- id -->\n` comment, the chunk
text, and a blank-line separator. -/

def renderChunk (includeChunkIDs : Bool) (ch : Chunk) : GoStr :=
  (if includeChunkIDs then [60, 33, 45, 45, 32] ++ ch.id ++ [32, 45, 45, 62, 10] else [])
    ++ ch.text ++ [10, 10]

def RenderMarkdown (title : GoStr) (chunks : List Chunk) (includeChunkIDs : Bool) : GoStr :=
  [35, 32] ++ (if title = [] then defaultTitle else title) ++ [10, 10]
    ++ (chunks.map (renderChunk includeChunkIDs)).flatten

/-- `strings.ReplaceAll(content, "\r\n", "\n")`. -/

def replaceAll1310 : GoStr → GoStr
  | [] => []
  | [c] => [c]
  | c :: d :: rest =>
    if c = 13 ∧ d = 10 then 10 :: replaceAll1310 rest
    else c :: replaceAll1310 (d :: rest)

/-- `strings.ReplaceAll(content, "\r", "\n")`. -/

def replaceAll13 (l : GoStr) : GoStr := l.map fun c => if c = 13 then 10 else c

/-- `strings.TrimRight(s, "\n")`. -/

def trimRightNL (l : GoStr) : GoStr := (l.reverse.dropWhile fun c => c == 10).reverse

/-- The content actually written by `WriteMarkdown`: line endings normalized to
`\n`, trailing newlines trimmed, one final newline appended. -/

def writeMarkdownContent (content : GoStr) : GoStr :=
  trimRightNL (replaceAll13 (replaceAll1310 content)) ++ [10]

/-! ## Theorems -/

example : fnv1a64 [] = fnvOffsetBasis64 := by decide

example : generateKgrams [1, 2, 3] 2 = [[1, 2], [2, 3]] := by decide

example : hammingDistance 5 6 = 2 := by decide

example : simhash64 [97] 2 = 0 := by decide

example :
    (Dedupe [⟨[1], [97], [97], 0⟩, ⟨[2], [97], [97], 1⟩] ⟨"exact", 5, 6, 250⟩).stats.droppedCount
      = 1 := by decide

theorem minNat?_eq_none {l : List Nat} : minNat? l = none ↔ l = [] := by
  cases l with
  | nil => simp [minNat?]
  | cons x xs => cases h : minNat? xs <;> simp [minNat?, h]

theorem minNat?_mem {l : List Nat} {m : Nat} (h : minNat? l = some m) : m ∈ l := by
  induction l generalizing m with
  | nil => simp [minNat?] at h
  | cons x xs ih =>
    cases hx : minNat? xs with
    | none =>
      simp [minNat?, hx] at h
      simp [h]
    | some mr =>
      simp [minNat?, hx] at h
      rw [← h]
      rcases min_choice x mr with hc | hc
      · rw [hc]; exact List.mem_cons_self _ _
      · rw [hc]; exact List.mem_cons_of_mem _ (ih hx)

theorem minNat?_le {l : List Nat} {m : Nat} (h : minNat? l = some m) :
    ∀ x ∈ l, m ≤ x := by
  induction l generalizing m with
  | nil => simp [minNat?] at h
  | cons x xs ih =>
    cases hx : minNat? xs with
    | none =>
      rw [minNat?_eq_none] at hx
      subst hx
      simp [minNat?] at h
      simp [h]
    | some mr =>
      simp [minNat?, hx] at h
      intro y hy
      rcases List.mem_cons.1 hy with rfl | hy
      · exact h ▸ min_le_left _ _
      · exact le_trans (h ▸ min_le_right _ _) (ih hx y hy)

theorem minNat?_of_zero_mem {l : List Nat} (h : 0 ∈ l) : minNat? l = some 0 := by
  cases hm : minNat? l with
  | none => rw [minNat?_eq_none] at hm; simp [hm] at h
  | some m => exact congrArg some (Nat.le_zero.1 (minNat?_le hm 0 h)) ▸ rfl

/-- If the minimum of the mapped list is attained, `find?` locates the
earliest element achieving it. -/

theorem find?_of_minNat? {l : List (Chunk × Nat)} {f : Chunk × Nat → Nat} {m : Nat}
    (h : minNat? (l.map f) = some m) : ∃ q, l.find? (fun p => f p == m) = some q := by
  cases hf : l.find? (fun p => f p == m) with
  | some q => exact ⟨q, rfl⟩
  | none =>
    rcases List.mem_map.1 (minNat?_mem h) with ⟨p, hp, hfp⟩
    have hnp := List.find?_eq_none.1 hf p hp
    simp [hfp] at hnp

/-- The comparison loop computes the minimum distance over the window and the
earliest entry achieving it: starting from state `(mt, mid, minD)`, it ends in
`(true, q.id, m)` where `m` is the minimum distance over the window and `q`
the earliest entry achieving it, provided `m ≤ threshold` and `m < minD`, and
leaves the state unchanged otherwise. -/

theorem scanWindow_spec (t : Int) (sig : Nat) (range : List (Chunk × Nat))
    (st : Bool × GoStr × Int) :
    scanWindow t sig range st =
      match minNat? (range.map fun p => hammingDistance sig p.2) with
      | none => st
      | some m =>
        if (m : Int) ≤ t ∧ (m : Int) < st.2.2 then
          match range.find? fun p => hammingDistance sig p.2 == m with
          | some q => (true, q.1.id, (m : Int))
          | none => st
        else st := by
  induction range generalizing st with
  | nil => simp [scanWindow, minNat?]
  | cons p rest ih =>
    obtain ⟨mt, mid, minD⟩ := st
    by_cases hcond : (hammingDistance sig p.2 : Int) ≤ t ∧ (hammingDistance sig p.2 : Int) < minD
    · rw [show scanWindow t sig (p :: rest) (mt, mid, minD)
          = scanWindow t sig rest (true, p.1.id, (hammingDistance sig p.2 : Int)) by
        simp [scanWindow, hcond], ih]
      cases hmr : minNat? (rest.map fun p => hammingDistance sig p.2) with
      | none =>
        have hrest : rest = [] := by simpa using minNat?_eq_none.1 hmr
        subst hrest
        simp [minNat?, hcond, List.find?]
      | some mr =>
        simp only [List.map_cons, minNat?, hmr]
        by_cases hlt : mr < hammingDistance sig p.2
        · obtain ⟨q, hq⟩ := find?_of_minNat? hmr
          have hmin : min (hammingDistance sig p.2) mr = mr := min_eq_right (le_of_lt hlt)
          have hne : (hammingDistance sig p.2 == mr) = false := by simp; omega
          have h1 : (mr : Int) ≤ t ∧ (mr : Int) < (hammingDistance sig p.2 : Int) :=
            ⟨le_trans (by exact_mod_cast le_of_lt hlt) hcond.1, by exact_mod_cast hlt⟩
          have h2 : (mr : Int) ≤ t ∧ (mr : Int) < minD := ⟨h1.1, lt_trans h1.2 hcond.2⟩
          rw [hmin, if_pos h1, if_pos h2]
          simp [List.find?_cons, hne, hq]
        · have hmin : min (hammingDistance sig p.2) mr = hammingDistance sig p.2 :=
            min_eq_left (Nat.le_of_not_lt hlt)
          have hno : ¬ ((mr : Int) ≤ t ∧ (mr : Int) < (hammingDistance sig p.2 : Int)) := by
            intro h
            exact hlt (by exact_mod_cast h.2)
          rw [hmin, if_neg hno, if_pos hcond]
          simp [List.find?_cons]
    · rw [show scanWindow t sig (p :: rest) (mt, mid, minD)
          = scanWindow t sig rest (mt, mid, minD) by simp [scanWindow, hcond], ih]
      cases hmr : minNat? (rest.map fun p => hammingDistance sig p.2) with
      | none =>
        have hrest : rest = [] := by simpa using minNat?_eq_none.1 hmr
        subst hrest
        simp [minNat?, hcond]
      | some mr =>
        simp only [List.map_cons, minNat?, hmr]
        by_cases hC : (mr : Int) ≤ t ∧ (mr : Int) < minD
        · obtain ⟨q, hq⟩ := find?_of_minNat? hmr
          have hlt : mr < hammingDistance sig p.2 := by
            rcases Nat.lt_or_ge mr (hammingDistance sig p.2) with h | h
            · exact h
            · exact absurd ⟨le_trans (by exact_mod_cast h) hC.1,
                lt_of_le_of_lt (by exact_mod_cast h) hC.2⟩ hcond
          have hmin : min (hammingDistance sig p.2) mr = mr := min_eq_right (le_of_lt hlt)
          have hne : (hammingDistance sig p.2 == mr) = false := by simp; omega
          rw [hmin, if_pos hC, if_pos hC]
          simp [List.find?_cons, hne, hq]
        · by_cases hlt : mr < hammingDistance sig p.2
          · have hmin : min (hammingDistance sig p.2) mr = mr := min_eq_right (le_of_lt hlt)
            rw [hmin, if_neg hC, if_neg hC]
          · have hmin : min (hammingDistance sig p.2) mr = hammingDistance sig p.2 :=
              min_eq_left (Nat.le_of_not_lt hlt)
            rw [hmin, if_neg hC, if_neg hcond]

theorem hammingDistance_le (a b : Nat) : hammingDistance a b ≤ 64 := by
  have h := List.length_filter_le (fun i => bitOf (a ^^^ b) i) (List.range 64)
  simpa [hammingDistance, onesCount64] using h

/-- One step of `simhashDedupe` agrees with one step of the spec-side pass:
given parallel kept/signature lists and (for `window = 0`) the bound
`len(kept) ≤ N` under which the source's `windowSize = len(chunks)` means
"all kept entries". -/

theorem simhashStep_spec (cfg : Config) (hw : 0 ≤ cfg.window) (N : Nat) (ws : Int)
    (hws : ws = if cfg.window = 0 then (N : Int) else cfg.window)
    (st : SimState) (c : Chunk)
    (hlen : st.keptSigs.length = st.kept.length)
    (hbound : st.kept.length ≤ N) :
    ((simhashStep cfg ws st c).kept.zip (simhashStep cfg ws st c).keptSigs,
        (simhashStep cfg ws st c).dropped)
      = specStep cfg (st.kept.zip st.keptSigs, st.dropped) c
    ∧ (simhashStep cfg ws st c).keptSigs.length = (simhashStep cfg ws st c).kept.length
    ∧ (simhashStep cfg ws st c).kept.length ≤ st.kept.length + 1 := by
  have hzlen : (st.kept.zip st.keptSigs).length = st.kept.length := by
    rw [List.length_zip, hlen, min_self]
  have hstart : windowStart st.kept.length ws
      = (st.kept.zip st.keptSigs).length
        - specWindowSize cfg.window (st.kept.zip st.keptSigs).length := by
    rw [hzlen]
    subst hws
    unfold windowStart specWindowSize
    split_ifs <;> omega
  have hzip : (st.kept ++ [c]).zip (st.keptSigs ++ [simhash64 c.norm cfg.simHashK])
      = st.kept.zip st.keptSigs ++ [(c, simhash64 c.norm cfg.simHashK)] := by
    rw [List.zip_append hlen.symm]
    rfl
  simp only [simhashStep, specStep, specRange, scanWindow_spec, hstart, hzlen]
  cases hmn : minNat? (((st.kept.zip st.keptSigs).drop
      (st.kept.length - specWindowSize cfg.window st.kept.length)).map
      fun p => hammingDistance (simhash64 c.norm cfg.simHashK) p.2) with
  | none => simp [hzip, hlen]
  | some m =>
    have hm64 : m ≤ 64 := by
      have hmem := minNat?_mem hmn
      rcases List.mem_map.1 hmem with ⟨p, _, hfp⟩
      exact hfp ▸ hammingDistance_le _ _
    have h65 : (m : Int) < 65 := by exact_mod_cast Nat.lt_succ_of_le hm64
    by_cases hT : (m : Int) ≤ cfg.simHashThreshold
    · cases hfq : ((st.kept.zip st.keptSigs).drop
          (st.kept.length - specWindowSize cfg.window st.kept.length)).find?
          (fun p => hammingDistance (simhash64 c.norm cfg.simHashK) p.2 == m) with
      | some q => simp [hT, h65, hfq, hlen]
      | none => simp [hT, h65, hfq, hzip, hlen]
    · simp [hT, hzip, hlen]

/-- The loop of `simhashDedupe` agrees with the spec-side fold, maintaining
the kept/signature parallelism. -/

theorem simhashFold_spec (cfg : Config) (hw : 0 ≤ cfg.window) (N : Nat) (ws : Int)
    (hws : ws = if cfg.window = 0 then (N : Int) else cfg.window)
    (l : List Chunk) (st : SimState)
    (hlen : st.keptSigs.length = st.kept.length)
    (hbound : st.kept.length + l.length ≤ N) :
    ((l.foldl (simhashStep cfg ws) st).kept.zip (l.foldl (simhashStep cfg ws) st).keptSigs,
        (l.foldl (simhashStep cfg ws) st).dropped)
      = l.foldl (specStep cfg) (st.kept.zip st.keptSigs, st.dropped)
    ∧ (l.foldl (simhashStep cfg ws) st).keptSigs.length
        = (l.foldl (simhashStep cfg ws) st).kept.length := by
  induction l generalizing st with
  | nil => exact ⟨rfl, hlen⟩
  | cons c rest ih =>
    have hb1 : st.kept.length ≤ N := by
      have := hbound
      simp at this
      omega
    obtain ⟨hstep, hlen', hgrow⟩ := simhashStep_spec cfg hw N ws hws st c hlen hb1
    have hbound' : (simhashStep cfg ws st c).kept.length + rest.length ≤ N := by
      have := hbound
      simp at this
      omega
    simp only [List.foldl_cons]
    rw [← hstep]
    exact ih (simhashStep cfg ws st c) hlen' hbound'

/-- **C1.**  In the SimHash near-duplicate deduper, for every input chunk the
comparison range is the last `W` entries of the kept-signature list where
`W = window` if `window > 0` and otherwise all kept entries; the chunk is
dropped iff the minimum Hamming distance to a signature in that range is at
most the threshold; the recorded `matched_chunk_id` is the id at the earliest
kept index among those achieving that minimum distance; distances strictly
greater than the threshold never produce a match; and a kept chunk and its
signature are appended only after the comparison.  Formally: `simhashDedupe`
(embedded from the source) equals `specSimhashDedupe` (written from the
spec's words), for every non-negative window. -/

theorem simhashDedupe_eq_spec (chunks : List Chunk) (cfg : Config) (hw : 0 ≤ cfg.window) :
    simhashDedupe chunks cfg = specSimhashDedupe chunks cfg := by
  by_cases hc : chunks = []
  · subst hc
    simp [simhashDedupe, specSimhashDedupe]
  · obtain ⟨hfold, hlen⟩ := simhashFold_spec cfg hw chunks.length
      (if cfg.window = 0 then (chunks.length : Int) else cfg.window) rfl chunks ⟨[], [], []⟩ rfl
      (by simp)
    simp only [List.zip_nil_left] at hfold
    simp only [simhashDedupe, specSimhashDedupe, if_neg hc]
    have h1 := congrArg Prod.fst hfold
    have h2 := congrArg Prod.snd hfold
    simp only [] at h1 h2
    rw [Prod.ext_iff]
    refine ⟨?_, h2⟩
    rw [← h1, List.map_fst_zip _ _ (le_of_eq hlen.symm)]

/-- Witness for C1: the refinement applied at a concrete configuration and
chunk sequence, the window hypothesis discharged by evaluation. -/

theorem simhashDedupe_eq_spec_witness :
    0 ≤ (Config.mk "simhash" 5 6 250).window
    ∧ simhashDedupe [⟨[1], [97, 98], [97, 98], 0⟩, ⟨[2], [99], [99], 1⟩]
        (Config.mk "simhash" 5 6 250)
      = specSimhashDedupe [⟨[1], [97, 98], [97, 98], 0⟩, ⟨[2], [99], [99], 1⟩]
        (Config.mk "simhash" 5 6 250) :=
  ⟨by decide, simhashDedupe_eq_spec _ _ (by decide)⟩

/-! ## Short normalized text and the zero signature (claim C10) -/

theorem simhash64_short (s : GoStr) (k : Int) (h : (s.length : Int) < k) :
    simhash64 s k = 0 := by
  unfold simhash64
  by_cases hs : s = [] ∨ k ≤ 0
  · simp [hs]
  · rw [if_neg hs]
    have hkg : generateKgrams s k = [] := by
      unfold generateKgrams
      rw [if_pos (Or.inr h)]
    simp [hkg]

theorem onesCount64_eq_zero {s : Nat} (hs : s < 2 ^ 64) (h : onesCount64 s = 0) : s = 0 := by
  apply Nat.eq_of_testBit_eq
  intro i
  rw [Nat.zero_testBit]
  by_cases hi : i < 64
  · have hmem : i ∈ List.range 64 := List.mem_range.2 hi
    have hnb := (List.filter_eq_nil_iff.1 (List.length_eq_zero.1 h)) i hmem
    rw [Nat.testBit_to_div_mod]
    simpa [bitOf] using hnb
  · exact Nat.testBit_lt_two_pow
      (lt_of_lt_of_le hs (Nat.pow_le_pow_right (by norm_num) (Nat.le_of_not_lt hi)))

theorem hammingDistance_zero_iff {s : Nat} (hs : s < 2 ^ 64) :
    hammingDistance 0 s = 0 ↔ s = 0 := by
  constructor
  · intro h
    apply onesCount64_eq_zero hs
    simpa [hammingDistance, Nat.zero_xor] using h
  · rintro rfl
    decide

theorem find?_ext {α : Type} {p q : α → Bool} :
    ∀ l : List α, (∀ x ∈ l, p x = q x) → l.find? p = l.find? q
  | [], _ => rfl
  | x :: xs, h => by
    simp only [List.find?_cons]
    rw [h x (List.mem_cons_self x xs)]
    cases q x
    · exact find?_ext xs fun y hy => h y (List.mem_cons_of_mem _ hy)
    · rfl

/-- **C10.**  A chunk whose normalized form is shorter than `k` bytes receives
SimHash signature 0.  Consequently in the near-duplicate pass (any threshold
at least 0), whenever the comparison window of such a chunk contains a kept
entry with signature 0 — as any earlier kept chunk with a short normalized
form provides — the chunk is dropped as a `near_duplicate` at distance 0
against the earliest such entry, regardless of its text. -/

theorem shortChunk_dropped_at_zero (cfg : Config) (windowSize : Int) (st : SimState) (c : Chunk)
    (hshort : (c.norm.length : Int) < cfg.simHashK)
    (hthr : 0 ≤ cfg.simHashThreshold)
    (hsigs : ∀ s ∈ st.keptSigs, s < 2 ^ 64)
    (hsig0 : ∃ p ∈ (st.kept.zip st.keptSigs).drop (windowStart st.kept.length windowSize),
      p.2 = 0) :
    simhash64 c.norm cfg.simHashK = 0
    ∧ ∃ q, ((st.kept.zip st.keptSigs).drop (windowStart st.kept.length windowSize)).find?
          (fun p => p.2 == 0) = some q
      ∧ simhashStep cfg windowSize st c
        = { st with dropped := st.dropped
            ++ [⟨c.id, "near_duplicate", q.1.id, 0, truncPreview c.text⟩] } := by
  have hsig : simhash64 c.norm cfg.simHashK = 0 := simhash64_short _ _ hshort
  obtain ⟨p0, hp0, hp0z⟩ := hsig0
  have hrsig : ∀ p ∈ (st.kept.zip st.keptSigs).drop (windowStart st.kept.length windowSize),
      p.2 < 2 ^ 64 := by
    rintro ⟨a, b⟩ hp
    exact hsigs b (List.of_mem_zip (List.mem_of_mem_drop hp)).2
  have hpe : ∀ p ∈ (st.kept.zip st.keptSigs).drop (windowStart st.kept.length windowSize),
      ((hammingDistance 0 p.2 == 0) = (p.2 == 0)) := by
    intro p hp
    by_cases hz : p.2 = 0
    · have h00 : hammingDistance 0 0 = 0 := by decide
      simp [hz, h00]
    · have : hammingDistance 0 p.2 ≠ 0 := fun hcon =>
        hz ((hammingDistance_zero_iff (hrsig p hp)).1 hcon)
      simp [this, hz]
  have h0mem : (0 : Nat)
      ∈ ((st.kept.zip st.keptSigs).drop (windowStart st.kept.length windowSize)).map
        fun p => hammingDistance 0 p.2 := by
    refine List.mem_map.2 ⟨p0, hp0, ?_⟩
    rw [hp0z]
    decide
  have hmin := minNat?_of_zero_mem h0mem
  have hq0 : ∃ q, ((st.kept.zip st.keptSigs).drop
      (windowStart st.kept.length windowSize)).find? (fun p => p.2 == 0) = some q := by
    cases hf : ((st.kept.zip st.keptSigs).drop
        (windowStart st.kept.length windowSize)).find? (fun p => p.2 == 0) with
    | some q => exact ⟨q, rfl⟩
    | none =>
      have := List.find?_eq_none.1 hf p0 hp0
      simp [hp0z] at this
  obtain ⟨q, hq⟩ := hq0
  refine ⟨hsig, q, hq, ?_⟩
  have hfeq : ((st.kept.zip st.keptSigs).drop
      (windowStart st.kept.length windowSize)).find? (fun p => hammingDistance 0 p.2 == 0)
      = some q := by
    rw [find?_ext _ hpe, hq]
  simp only [simhashStep, hsig, scanWindow_spec, hmin, Nat.cast_zero]
  rw [if_pos ⟨hthr, by norm_num⟩, hfeq]

/-- Witness for C10 at a concrete window state, configuration and chunk, all
hypotheses discharged by evaluation. -/

theorem shortChunk_dropped_at_zero_witness :
    ((c10Chunk.norm.length : Int) < c10Cfg.simHashK
      ∧ 0 ≤ c10Cfg.simHashThreshold
      ∧ (∀ s ∈ c10State.keptSigs, s < 2 ^ 64)
      ∧ ∃ p ∈ (c10State.kept.zip c10State.keptSigs).drop
          (windowStart c10State.kept.length 250), p.2 = 0)
    ∧ (simhash64 c10Chunk.norm c10Cfg.simHashK = 0
      ∧ ∃ q, ((c10State.kept.zip c10State.keptSigs).drop
            (windowStart c10State.kept.length 250)).find? (fun p => p.2 == 0) = some q
        ∧ simhashStep c10Cfg 250 c10State c10Chunk
          = { c10State with dropped := c10State.dropped
              ++ [⟨c10Chunk.id, "near_duplicate", q.1.id, 0, truncPreview c10Chunk.text⟩] }) :=
  ⟨⟨by decide, by decide, by decide, by decide⟩,
    shortChunk_dropped_at_zero c10Cfg 250 c10State c10Chunk (by decide) (by decide) (by decide)
      (by decide)⟩

theorem vectorCount_eq_specTally (grams : List GoStr) (i : Nat) :
    vectorCount grams i = specTally grams i := by
  suffices h : ∀ v : Int,
      grams.foldl (fun v kg => if bitOf (fnv1a64 kg) i then v + 1 else v - 1) v
        = v + specTally grams i by
    simpa [vectorCount] using h 0
  induction grams with
  | nil => intro v; simp [specTally]
  | cons g gs ih =>
    intro v
    by_cases hb : bitOf (fnv1a64 g) i
    · simp only [List.foldl_cons, hb, if_pos, ih, specTally, List.filter_cons]
      simp [hb]
      ring
    · simp only [List.foldl_cons, hb, if_neg, ih, specTally, List.filter_cons]
      simp [hb]
      ring

theorem foldl_congr_fun {α β : Type} {f g : β → α → β} :
    ∀ (l : List α) (b : β), (∀ a ∈ l, ∀ x, f x a = g x a) → l.foldl f b = l.foldl g b
  | [], _, _ => rfl
  | a :: l, b, h => by
    simp only [List.foldl_cons]
    rw [h a (List.mem_cons_self a l)]
    exact foldl_congr_fun l _ fun a' ha' x => h a' (List.mem_cons_of_mem _ ha') x

/-- **C4.**  The SimHash signature of a normalized byte string `s` with
k-gram size `k ≥ 1` is 0 when `s` is empty or shorter than `k` bytes, and is
otherwise assembled from all `|s| - k + 1` contiguous k-grams, each hashed
with 64-bit FNV-1a using the canonical offset basis and prime (multiplication
modulo `2 ^ 64`), bit `i` of the signature being 1 iff tally entry `i` is
strictly greater than 0. -/

theorem simhash64_eq_specSimhash (s : GoStr) (k : Int) (hk : 1 ≤ k) :
    fnvOffsetBasis64 = 14695981039346656037
    ∧ fnvPrime64 = 1099511628211
    ∧ simhash64 s k = (if (s.length : Int) < k then 0 else specSimhash s k.toNat)
    ∧ (¬ (s.length : Int) < k → (specKgrams s k.toNat).length = s.length - k.toNat + 1) := by
  refine ⟨rfl, rfl, ?_, fun _ => by simp [specKgrams]⟩
  by_cases hshort : (s.length : Int) < k
  · rw [if_pos hshort, simhash64_short s k hshort]
  · rw [if_neg hshort]
    have hknot : ¬ (k ≤ 0 ∨ (s.length : Int) < k) := by
      rintro (h | h)
      · omega
      · exact hshort h
    have hs : ¬ (s = [] ∨ k ≤ 0) := by
      rintro (rfl | h)
      · exact hshort (by simpa using hk)
      · omega
    have hkg : generateKgrams s k = specKgrams s k.toNat := by
      unfold generateKgrams specKgrams
      rw [if_neg hknot]
    have hne : generateKgrams s k ≠ [] := by
      rw [hkg]
      simp [specKgrams]
    unfold simhash64 specSimhash
    rw [if_neg hs, if_neg hne, hkg]
    exact foldl_congr_fun _ _ fun i _ x => by rw [vectorCount_eq_specTally]

/-- Witness for C4 at `k = 5` and a concrete 11-byte string. -/

theorem simhash64_eq_specSimhash_witness :
    (1 : Int) ≤ 5
    ∧ (fnvOffsetBasis64 = 14695981039346656037
      ∧ fnvPrime64 = 1099511628211
      ∧ simhash64 [104, 101, 108, 108, 111, 32, 119, 111, 114, 108, 100] 5
        = (if (([104, 101, 108, 108, 111, 32, 119, 111, 114, 108, 100] : GoStr).length : Int) < 5
          then 0
          else specSimhash [104, 101, 108, 108, 111, 32, 119, 111, 114, 108, 100] (Int.toNat 5))
      ∧ (¬ (([104, 101, 108, 108, 111, 32, 119, 111, 114, 108, 100] : GoStr).length : Int) < 5
        → (specKgrams [104, 101, 108, 108, 111, 32, 119, 111, 114, 108, 100] (Int.toNat 5)).length
          = ([104, 101, 108, 108, 111, 32, 119, 111, 114, 108, 100] : GoStr).length
            - Int.toNat 5 + 1)) :=
  ⟨by decide, simhash64_eq_specSimhash _ 5 (by decide)⟩

/-! ## Structural facts about the dedup passes (for claims C2 and C3) -/

/-- A matched comparison loop ends with a non-negative distance within the
threshold. -/

theorem scanWindow_matched {t : Int} {sig : Nat} {range : List (Chunk × Nat)} {mid : GoStr}
    {d : Int} (h : scanWindow t sig range (false, [], 65) = (true, mid, d)) :
    0 ≤ d ∧ d ≤ t := by
  rw [scanWindow_spec] at h
  cases hmn : minNat? (range.map fun p => hammingDistance sig p.2) with
  | none =>
    rw [hmn] at h
    simp at h
  | some m =>
    rw [hmn] at h
    simp only [] at h
    by_cases hc : (m : Int) ≤ t ∧ (m : Int) < 65
    · rw [if_pos hc] at h
      cases hf : range.find? (fun p => hammingDistance sig p.2 == m) with
      | some q =>
        rw [hf] at h
        simp at h
        exact ⟨h.2 ▸ Int.natCast_nonneg m, h.2 ▸ hc.1⟩
      | none =>
        rw [hf] at h
        simp at h
    · rw [if_neg hc] at h
      simp at h

/-- Each step of `simhashDedupe` either drops the chunk (appending one
`near_duplicate` record with its id and a non-negative distance) or keeps it
(appending it and its signature). -/

theorem simhashStep_shape (cfg : Config) (ws : Int) (st : SimState) (c : Chunk) :
    (∃ mid minD, 0 ≤ minD ∧ simhashStep cfg ws st c
      = { st with dropped := st.dropped
          ++ [⟨c.id, "near_duplicate", mid, minD, truncPreview c.text⟩] })
    ∨ simhashStep cfg ws st c
      = { st with
          kept := st.kept ++ [c]
          keptSigs := st.keptSigs ++ [simhash64 c.norm cfg.simHashK] } := by
  cases hsc : scanWindow cfg.simHashThreshold (simhash64 c.norm cfg.simHashK)
      ((st.kept.zip st.keptSigs).drop (windowStart st.kept.length ws)) (false, [], 65) with
  | mk b rest =>
    obtain ⟨mid, minD⟩ := rest
    cases b with
    | true =>
      exact Or.inl ⟨mid, minD, (scanWindow_matched hsc).1, by simp [simhashStep, hsc]⟩
    | false =>
      exact Or.inr (by simp [simhashStep, hsc])

/-- The kept ids and dropped chunk ids of `exactGo` are a permutation of the
input ids. -/

theorem exactGo_perm :
    ∀ (l : List Chunk) (seen : List (GoStr × GoStr)),
      ((exactGo l seen).1.map Chunk.id
        ++ (exactGo l seen).2.map DroppedChunk.chunkId).Perm (l.map Chunk.id)
  | [], _ => by simp [exactGo]
  | c :: rest, seen => by
    by_cases hempty : c.norm = []
    · have ih := exactGo_perm rest seen
      simp only [exactGo, if_pos hempty, List.map_cons]
      exact (ih.cons c.id)
    · cases hlook : seenLookup seen c.norm with
      | some existingId =>
        have ih := exactGo_perm rest seen
        simp only [exactGo, if_neg hempty, hlook, List.map_cons]
        exact List.perm_middle.trans (ih.cons c.id)
      | none =>
        have ih := exactGo_perm rest ((c.norm, c.id) :: seen)
        simp only [exactGo, if_neg hempty, hlook, List.map_cons]
        exact ih.cons c.id

/-- `exactGo` keeps a sublist of its input (order preserved). -/

theorem exactGo_sublist :
    ∀ (l : List Chunk) (seen : List (GoStr × GoStr)), (exactGo l seen).1.Sublist l
  | [], _ => by simp [exactGo]
  | c :: rest, seen => by
    by_cases hempty : c.norm = []
    · simp only [exactGo, if_pos hempty]
      exact (exactGo_sublist rest seen).cons₂ c
    · cases hlook : seenLookup seen c.norm with
      | some existingId =>
        simp only [exactGo, if_neg hempty, hlook]
        exact (exactGo_sublist rest seen).cons c
      | none =>
        simp only [exactGo, if_neg hempty, hlook]
        exact (exactGo_sublist rest ((c.norm, c.id) :: seen)).cons₂ c

/-- Every record dropped by `exactGo` has reason `exact_duplicate` and
distance 0. -/

theorem exactGo_dropped :
    ∀ (l : List Chunk) (seen : List (GoStr × GoStr)), ∀ r ∈ (exactGo l seen).2,
      r.reason = "exact_duplicate" ∧ r.distance = 0
  | [], _ => by simp [exactGo]
  | c :: rest, seen => by
    by_cases hempty : c.norm = []
    · simp only [exactGo, if_pos hempty]
      exact exactGo_dropped rest seen
    · cases hlook : seenLookup seen c.norm with
      | some existingId =>
        simp only [exactGo, if_neg hempty, hlook]
        intro r hr
        rcases List.mem_cons.1 hr with rfl | hr
        · exact ⟨rfl, rfl⟩
        · exact exactGo_dropped rest seen r hr
      | none =>
        simp only [exactGo, if_neg hempty, hlook]
        exact exactGo_dropped rest ((c.norm, c.id) :: seen)

/-- Kept ids and dropped chunk ids of the near-duplicate loop are a
permutation of the state's ids plus the input ids. -/

theorem simhashFold_perm (cfg : Config) (ws : Int) :
    ∀ (l : List Chunk) (st : SimState),
      ((l.foldl (simhashStep cfg ws) st).kept.map Chunk.id
        ++ (l.foldl (simhashStep cfg ws) st).dropped.map DroppedChunk.chunkId).Perm
      (st.kept.map Chunk.id ++ (st.dropped.map DroppedChunk.chunkId ++ l.map Chunk.id))
  | [], st => by simp
  | c :: rest, st => by
    rw [List.foldl_cons]
    rcases simhashStep_shape cfg ws st c with ⟨mid, minD, -, heq⟩ | heq <;> rw [heq]
    · refine (simhashFold_perm cfg ws rest _).trans ?_
      simp [List.append_assoc]
    · refine (simhashFold_perm cfg ws rest _).trans ?_
      simp only [List.map_append, List.map_cons, List.map_nil, List.append_assoc,
        List.singleton_append, List.cons_append, List.nil_append]
      exact List.Perm.append_left _ List.perm_middle.symm

/-- A chunk kept by the near-duplicate loop was already kept or is an input. -/

theorem simhashFold_kept_mem (cfg : Config) (ws : Int) :
    ∀ (l : List Chunk) (st : SimState) (x : Chunk),
      x ∈ (l.foldl (simhashStep cfg ws) st).kept → x ∈ st.kept ∨ x ∈ l
  | [], st, x => fun h => Or.inl h
  | c :: rest, st, x => by
    rw [List.foldl_cons]
    rcases simhashStep_shape cfg ws st c with ⟨mid, minD, -, heq⟩ | heq <;> rw [heq] <;>
      intro h
    · rcases simhashFold_kept_mem cfg ws rest _ x h with h' | h'
      · exact Or.inl h'
      · exact Or.inr (List.mem_cons_of_mem _ h')
    · rcases simhashFold_kept_mem cfg ws rest _ x h with h' | h'
      · rcases List.mem_append.1 h' with h'' | h''
        · exact Or.inl h''
        · exact Or.inr (List.mem_cons.2 (Or.inl (List.mem_singleton.1 h'')))
      · exact Or.inr (List.mem_cons_of_mem _ h')

/-- Every record dropped by the near-duplicate loop (beyond the initial
state) is a `near_duplicate` at non-negative distance against an input id. -/

theorem simhashFold_dropped (cfg : Config) (ws : Int) :
    ∀ (l : List Chunk) (st : SimState), ∀ r ∈ (l.foldl (simhashStep cfg ws) st).dropped,
      r ∈ st.dropped ∨ (r.reason = "near_duplicate" ∧ 0 ≤ r.distance ∧ ∃ c ∈ l, r.chunkId = c.id)
  | [], st, r => fun h => Or.inl h
  | c :: rest, st, r => by
    rw [List.foldl_cons]
    rcases simhashStep_shape cfg ws st c with ⟨mid, minD, hpos, heq⟩ | heq <;> rw [heq] <;>
      intro h
    · rcases simhashFold_dropped cfg ws rest _ r h with h' | h'
      · rcases List.mem_append.1 h' with h'' | h''
        · exact Or.inl h''
        · refine Or.inr ⟨?_, ?_, c, List.mem_cons_self c rest, ?_⟩ <;>
            simp [List.mem_singleton.1 h'', hpos]
      · exact Or.inr ⟨h'.1, h'.2.1, h'.2.2.imp fun c' hc' =>
          ⟨List.mem_cons_of_mem _ hc'.1, hc'.2⟩⟩
    · rcases simhashFold_dropped cfg ws rest _ r h with h' | h'
      · exact Or.inl h'
      · exact Or.inr ⟨h'.1, h'.2.1, h'.2.2.imp fun c' hc' =>
          ⟨List.mem_cons_of_mem _ hc'.1, hc'.2⟩⟩

/-- The loop drops or keeps each input exactly once. -/

theorem simhashFold_length (cfg : Config) (ws : Int) :
    ∀ (l : List Chunk) (st : SimState),
      (l.foldl (simhashStep cfg ws) st).kept.length
          + (l.foldl (simhashStep cfg ws) st).dropped.length
        = st.kept.length + st.dropped.length + l.length
  | [], st => by simp
  | c :: rest, st => by
    rw [List.foldl_cons]
    rcases simhashStep_shape cfg ws st c with ⟨mid, minD, -, heq⟩ | heq <;> rw [heq] <;>
      rw [simhashFold_length cfg ws rest _] <;> simp <;> omega

/-! ## The `both`-mode dropped-record merge -/

theorem insertDropped_ids_mem (d : DroppedChunk) :
    ∀ (acc : List DroppedChunk) (id : GoStr),
      id ∈ (insertDropped acc d).map DroppedChunk.chunkId
        ↔ id ∈ acc.map DroppedChunk.chunkId ∨ id = d.chunkId
  | [], id => by simp [insertDropped]
  | e :: rest, id => by
    by_cases he : e.chunkId = d.chunkId
    · by_cases hlt : d.distance < e.distance <;>
        simp [insertDropped, he, hlt] <;> tauto
    · simp only [insertDropped, if_neg he, List.map_cons, List.mem_cons,
        insertDropped_ids_mem d rest id]
      tauto

theorem insertDropped_nodup (d : DroppedChunk) :
    ∀ acc : List DroppedChunk, (acc.map DroppedChunk.chunkId).Nodup
      → ((insertDropped acc d).map DroppedChunk.chunkId).Nodup
  | [], _ => by simp [insertDropped]
  | e :: rest, h => by
    rw [List.map_cons, List.nodup_cons] at h
    by_cases he : e.chunkId = d.chunkId
    · by_cases hlt : d.distance < e.distance
      · simp only [insertDropped, if_pos he, if_pos hlt, List.map_cons, List.nodup_cons]
        exact ⟨he ▸ h.1, h.2⟩
      · simp only [insertDropped, if_pos he, if_neg hlt, List.map_cons, List.nodup_cons]
        exact ⟨h.1, h.2⟩
    · simp only [insertDropped, if_neg he, List.map_cons, List.nodup_cons]
      refine ⟨fun hmem => ?_, insertDropped_nodup d rest h.2⟩
      rcases (insertDropped_ids_mem d rest e.chunkId).1 hmem with hm | hm
      · exact h.1 hm
      · exact he hm

/-- Where the entries of an insertion come from, given distinct ids in the
accumulator: an untouched entry with a different id, the existing entry
already at most the new record's distance, or the new record, at most
every existing entry with its id. -/

theorem insertDropped_cases (d : DroppedChunk) :
    ∀ acc : List DroppedChunk, (acc.map DroppedChunk.chunkId).Nodup
      → ∀ r ∈ insertDropped acc d,
        (r ∈ acc ∧ (r.chunkId ≠ d.chunkId ∨ r.distance ≤ d.distance))
        ∨ (r = d ∧ (∀ e ∈ acc, e.chunkId = d.chunkId → d.distance ≤ e.distance)
            ∧ ((∀ e ∈ acc, e.chunkId ≠ d.chunkId)
              ∨ ∃ e ∈ acc, e.chunkId = d.chunkId ∧ d.distance < e.distance))
  | [], _, r => by
    simp only [insertDropped, List.mem_singleton]
    rintro rfl
    exact Or.inr ⟨rfl, by simp, Or.inl (by simp)⟩
  | e :: rest, h, r => by
    rw [List.map_cons, List.nodup_cons] at h
    have hother : ∀ x ∈ rest, x.chunkId ≠ e.chunkId := fun x hx hxe =>
      h.1 (hxe ▸ List.mem_map_of_mem DroppedChunk.chunkId hx)
    by_cases he : e.chunkId = d.chunkId
    · by_cases hlt : d.distance < e.distance
      · simp only [insertDropped, if_pos he, if_pos hlt, List.mem_cons]
        rintro (rfl | hr)
        · refine Or.inr ⟨rfl, fun e' he' hid => ?_, Or.inr ⟨e, Or.inl rfl, he, hlt⟩⟩
          rcases he' with rfl | he'
          · exact le_of_lt hlt
          · exact absurd (he ▸ hid : e'.chunkId = e.chunkId) (hother e' he')
        · exact Or.inl ⟨Or.inr hr, Or.inl fun hid => hother r hr (he ▸ hid)⟩
      · simp only [insertDropped, if_pos he, if_neg hlt, List.mem_cons]
        rintro (rfl | hr)
        · exact Or.inl ⟨Or.inl rfl, Or.inr (le_of_not_lt hlt)⟩
        · exact Or.inl ⟨Or.inr hr, Or.inl fun hid => hother r hr (he ▸ hid)⟩
    · simp only [insertDropped, if_neg he, List.mem_cons]
      rintro (rfl | hr)
      · exact Or.inl ⟨Or.inl rfl, Or.inl he⟩
      · rcases insertDropped_cases d rest h.2 r hr with h' | h'
        · exact Or.inl ⟨Or.inr h'.1, h'.2⟩
        · refine Or.inr ⟨h'.1, fun e' he' hid => ?_, ?_⟩
          · rcases he' with rfl | he'
            · exact absurd hid he
            · exact h'.2.1 e' he' hid
          · rcases h'.2.2 with hno | ⟨e', he', heid, hstrict⟩
            · refine Or.inl fun e' he'' => ?_
              rcases he'' with rfl | he''
              · exact he
              · exact hno e' he''
            · exact Or.inr ⟨e', Or.inr he', heid, hstrict⟩

/-- Invariant of the `droppedMap` fold: the accumulator has distinct ids,
exactly the processed ids, and each entry is minimal-distance among the
processed records with its id. -/

theorem mergeFold_inv :
    ∀ (l processed acc : List DroppedChunk),
      (acc.map DroppedChunk.chunkId).Nodup
      → (∀ id, id ∈ acc.map DroppedChunk.chunkId ↔ id ∈ processed.map DroppedChunk.chunkId)
      → (∀ r ∈ acc, r ∈ processed
          ∧ ∀ r' ∈ processed, r'.chunkId = r.chunkId → r.distance ≤ r'.distance)
      → ((l.foldl insertDropped acc).map DroppedChunk.chunkId).Nodup
        ∧ (∀ id, id ∈ (l.foldl insertDropped acc).map DroppedChunk.chunkId
            ↔ id ∈ (processed ++ l).map DroppedChunk.chunkId)
        ∧ (∀ r ∈ l.foldl insertDropped acc, r ∈ processed ++ l
            ∧ ∀ r' ∈ processed ++ l, r'.chunkId = r.chunkId → r.distance ≤ r'.distance)
  | [], processed, acc => fun h1 h2 h3 => by
    simp only [List.foldl_nil, List.append_nil]
    exact ⟨h1, h2, h3⟩
  | d :: rest, processed, acc => fun h1 h2 h3 => by
    have c1 := insertDropped_nodup d acc h1
    have c2 : ∀ id, id ∈ (insertDropped acc d).map DroppedChunk.chunkId
        ↔ id ∈ (processed ++ [d]).map DroppedChunk.chunkId := by
      intro id
      rw [insertDropped_ids_mem, h2]
      simp
    have c3 : ∀ r ∈ insertDropped acc d, r ∈ processed ++ [d]
        ∧ ∀ r' ∈ processed ++ [d], r'.chunkId = r.chunkId → r.distance ≤ r'.distance := by
      intro r hr
      rcases insertDropped_cases d acc h1 r hr with ⟨hmem, hside⟩ | ⟨rfl, hmin, -⟩
      · obtain ⟨hp, hminp⟩ := h3 r hmem
        refine ⟨List.mem_append_left _ hp, fun r' hr' hid => ?_⟩
        rcases List.mem_append.1 hr' with hr' | hr'
        · exact hminp r' hr' hid
        · have hrd : r' = d := List.mem_singleton.1 hr'
          subst hrd
          rcases hside with hne | hle
          · exact absurd hid.symm hne
          · exact hle
      · refine ⟨List.mem_append_right _ (List.mem_singleton.2 rfl), fun r' hr' hid => ?_⟩
        rcases List.mem_append.1 hr' with hr' | hr'
        · have hid' : r.chunkId ∈ processed.map DroppedChunk.chunkId :=
            hid ▸ List.mem_map_of_mem DroppedChunk.chunkId hr'
          rcases List.mem_map.1 ((h2 r.chunkId).2 hid') with ⟨e, hemem, heid⟩
          obtain ⟨hep, hminp⟩ := h3 e hemem
          exact le_trans (hmin e hemem heid) (hminp r' hr' (hid.trans heid.symm))
        · rw [List.mem_singleton.1 hr']
    have ih := mergeFold_inv rest (processed ++ [d]) (insertDropped acc d) c1 c2 c3
    simpa [List.append_assoc] using ih

/-- The merged dropped list: distinct ids, the same ids as the input, and
per-id minimal distance. -/

theorem mergeDropped_spec (l : List DroppedChunk) :
    ((mergeDropped l).map DroppedChunk.chunkId).Nodup
    ∧ (∀ id, id ∈ (mergeDropped l).map DroppedChunk.chunkId
        ↔ id ∈ l.map DroppedChunk.chunkId)
    ∧ (∀ r ∈ mergeDropped l, r ∈ l
        ∧ ∀ r' ∈ l, r'.chunkId = r.chunkId → r.distance ≤ r'.distance) := by
  have h := mergeFold_inv l [] [] (by simp) (by simp) (by simp)
  simpa [mergeDropped] using h

/-- Folding further records of non-negative distance over an accumulator that
already holds, for every id of `l₁`, a record of `l₁` (all at distance 0)
never replaces those records. -/

theorem mergeFold_keeps_first (l₁ : List DroppedChunk)
    (h1 : ∀ r ∈ l₁, r.distance = 0) :
    ∀ (l₂ acc : List DroppedChunk),
      (∀ r ∈ l₂, 0 ≤ r.distance)
      → (acc.map DroppedChunk.chunkId).Nodup
      → (∀ id, id ∈ l₁.map DroppedChunk.chunkId → id ∈ acc.map DroppedChunk.chunkId)
      → (∀ r ∈ acc, (∃ e ∈ l₁, e.chunkId = r.chunkId) → r ∈ l₁)
      → ∀ r ∈ l₂.foldl insertDropped acc, (∃ e ∈ l₁, e.chunkId = r.chunkId) → r ∈ l₁
  | [], acc => fun _ _ _ hP => hP
  | d :: rest, acc => fun h2 hnd hids hP => by
    rw [List.foldl_cons]
    refine mergeFold_keeps_first l₁ h1 rest (insertDropped acc d)
      (fun r hr => h2 r (List.mem_cons_of_mem _ hr))
      (insertDropped_nodup d acc hnd)
      (fun id hid => (insertDropped_ids_mem d acc id).2 (Or.inl (hids id hid)))
      ?_
    intro r hr ⟨e₁, he₁, he₁id⟩
    rcases insertDropped_cases d acc hnd r hr with ⟨hmem, -⟩ | ⟨rfl, -, hnew⟩
    · exact hP r hmem ⟨e₁, he₁, he₁id⟩
    · exfalso
      have hdid : r.chunkId ∈ acc.map DroppedChunk.chunkId :=
        hids r.chunkId (he₁id ▸ List.mem_map_of_mem DroppedChunk.chunkId he₁)
      rcases List.mem_map.1 hdid with ⟨e, hemem, heid⟩
      rcases hnew with hno | ⟨e', he'mem, he'id, hstrict⟩
      · exact hno e hemem heid
      · have he'l1 : e' ∈ l₁ := hP e' he'mem ⟨e₁, he₁, he₁id.trans he'id.symm⟩
        have := h1 e' he'l1
        have hge := h2 r (List.mem_cons_self r rest)
        omega

/-- In the merge of `l₁ ++ l₂` where `l₁` records are all at distance 0 and
`l₂` records at non-negative distance, a merged record whose id occurs in
`l₁` is an `l₁` record: the first-inserted record wins ties. -/

theorem mergeDropped_first_wins (l₁ l₂ : List DroppedChunk)
    (h1 : ∀ r ∈ l₁, r.distance = 0) (h2 : ∀ r ∈ l₂, 0 ≤ r.distance) :
    ∀ r ∈ mergeDropped (l₁ ++ l₂), (∃ e ∈ l₁, e.chunkId = r.chunkId) → r ∈ l₁ := by
  have hsplit : mergeDropped (l₁ ++ l₂) = l₂.foldl insertDropped (mergeDropped l₁) := by
    simp [mergeDropped, List.foldl_append]
  rw [hsplit]
  obtain ⟨hnd, hids, hmem⟩ := mergeDropped_spec l₁
  exact mergeFold_keeps_first l₁ h1 l₂ (mergeDropped l₁) h2 hnd
    (fun id hid => (hids id).2 hid) (fun r hr _ => (hmem r hr).1)

/-! ## Pass-level corollaries and the orchestrator's bookkeeping -/

theorem exactHashDedupe_perm (chunks : List Chunk) :
    ((exactHashDedupe chunks).1.map Chunk.id
      ++ (exactHashDedupe chunks).2.map DroppedChunk.chunkId).Perm (chunks.map Chunk.id) := by
  unfold exactHashDedupe
  split_ifs with h
  · subst h; simp
  · exact exactGo_perm chunks []

theorem exactHashDedupe_sublist (chunks : List Chunk) :
    (exactHashDedupe chunks).1.Sublist chunks := by
  unfold exactHashDedupe
  split_ifs with h
  · subst h; simp
  · exact exactGo_sublist chunks []

theorem exactHashDedupe_dropped (chunks : List Chunk) :
    ∀ r ∈ (exactHashDedupe chunks).2, r.reason = "exact_duplicate" ∧ r.distance = 0 := by
  unfold exactHashDedupe
  split_ifs with h
  · simp
  · exact exactGo_dropped chunks []

theorem exactHashDedupe_length (chunks : List Chunk) :
    (exactHashDedupe chunks).1.length + (exactHashDedupe chunks).2.length = chunks.length := by
  have h := (exactHashDedupe_perm chunks).length_eq
  simpa using h

theorem simhashDedupe_perm (chunks : List Chunk) (cfg : Config) :
    ((simhashDedupe chunks cfg).1.map Chunk.id
      ++ (simhashDedupe chunks cfg).2.map DroppedChunk.chunkId).Perm (chunks.map Chunk.id) := by
  by_cases h : chunks = []
  · subst h; simp [simhashDedupe]
  · simp only [simhashDedupe, if_neg h]
    have hp := simhashFold_perm cfg (if cfg.window = 0 then (chunks.length : Int) else cfg.window)
      chunks ⟨[], [], []⟩
    simpa using hp

theorem simhashDedupe_kept_mem (chunks : List Chunk) (cfg : Config) :
    ∀ x ∈ (simhashDedupe chunks cfg).1, x ∈ chunks := by
  by_cases h : chunks = []
  · subst h; simp [simhashDedupe]
  · simp only [simhashDedupe, if_neg h]
    intro x hx
    rcases simhashFold_kept_mem cfg _ chunks ⟨[], [], []⟩ x hx with h' | h'
    · exact absurd h' (List.not_mem_nil x)
    · exact h'

theorem simhashDedupe_dropped (chunks : List Chunk) (cfg : Config) :
    ∀ r ∈ (simhashDedupe chunks cfg).2, r.reason = "near_duplicate" ∧ 0 ≤ r.distance := by
  by_cases h : chunks = []
  · subst h; simp [simhashDedupe]
  · simp only [simhashDedupe, if_neg h]
    intro r hr
    rcases simhashFold_dropped cfg _ chunks ⟨[], [], []⟩ r hr with h' | h'
    · exact absurd h' (List.not_mem_nil r)
    · exact ⟨h'.1, h'.2.1⟩

theorem simhashDedupe_length (chunks : List Chunk) (cfg : Config) :
    (simhashDedupe chunks cfg).1.length + (simhashDedupe chunks cfg).2.length
      = chunks.length := by
  by_cases h : chunks = []
  · subst h; simp [simhashDedupe]
  · simp only [simhashDedupe, if_neg h]
    have hl := simhashFold_length cfg (if cfg.window = 0 then (chunks.length : Int) else cfg.window)
      chunks ⟨[], [], []⟩
    simpa using hl

theorem validate_method (c : Config) :
    c.validate.method = "exact" ∨ c.validate.method = "simhash" ∨ c.validate.method = "both" := by
  have hm : c.validate.method
      = if c.method ≠ "exact" ∧ c.method ≠ "simhash" ∧ c.method ≠ "both" then "simhash"
        else c.method := rfl
  rw [hm]
  by_cases h : c.method ≠ "exact" ∧ c.method ≠ "simhash" ∧ c.method ≠ "both"
  · rw [if_pos h]
    tauto
  · rw [if_neg h]
    tauto

theorem validate_method_both (c : Config) (h : c.method = "both") :
    c.validate.method = "both" := by
  have hm : c.validate.method
      = if c.method ≠ "exact" ∧ c.method ≠ "simhash" ∧ c.method ≠ "both" then "simhash"
        else c.method := rfl
  rw [hm, if_neg (by simp [h])]
  exact h

theorem countReason_total :
    ∀ l : List DroppedChunk,
      (∀ r ∈ l, r.reason = "exact_duplicate" ∨ r.reason = "near_duplicate")
      → countReason l "exact_duplicate" + countReason l "near_duplicate" = (l.length : Int)
  | [], _ => by simp [countReason]
  | r :: rest, h => by
    have ih := countReason_total rest fun r' hr' => h r' (List.mem_cons_of_mem _ hr')
    simp only [countReason] at *
    rcases h r (List.mem_cons_self r rest) with he | hn
    · have h1 : ((r :: rest).filter fun d => d.reason = "exact_duplicate")
          = r :: (rest.filter fun d => d.reason = "exact_duplicate") := by
        simp [List.filter_cons, he]
      have h2 : ((r :: rest).filter fun d => d.reason = "near_duplicate")
          = rest.filter fun d => d.reason = "near_duplicate" := by
        simp [List.filter_cons, he]
      rw [h1, h2]
      simp only [List.length_cons]
      push_cast
      omega
    · have h1 : ((r :: rest).filter fun d => d.reason = "exact_duplicate")
          = rest.filter fun d => d.reason = "exact_duplicate" := by
        simp [List.filter_cons, hn]
      have h2 : ((r :: rest).filter fun d => d.reason = "near_duplicate")
          = r :: (rest.filter fun d => d.reason = "near_duplicate") := by
        simp [List.filter_cons, hn]
      rw [h1, h2]
      simp only [List.length_cons]
      push_cast
      omega

theorem keptIdMem_iff (kept : List Chunk) (id : GoStr) :
    keptIdMem kept id = true ↔ id ∈ kept.map Chunk.id := by
  simp [keptIdMem, List.any_eq_true, List.mem_map]

/-- The counting identity of `both` mode under pairwise-distinct ids: each
input chunk is either kept by both passes or contributes exactly one merged
dropped record. -/

theorem bothMode_count (chunks : List Chunk) (cfg : Config)
    (hnodup : (chunks.map Chunk.id).Nodup) :
    (chunks.filter fun c => keptIdMem (exactHashDedupe chunks).1 c.id
        && keptIdMem (simhashDedupe chunks cfg).1 c.id).length
      + (mergeDropped ((exactHashDedupe chunks).2 ++ (simhashDedupe chunks cfg).2)).length
      = chunks.length := by
  classical
  have hpe := exactHashDedupe_perm chunks
  have hps := simhashDedupe_perm chunks cfg
  have hne : ((exactHashDedupe chunks).1.map Chunk.id
      ++ (exactHashDedupe chunks).2.map DroppedChunk.chunkId).Nodup := hpe.nodup_iff.2 hnodup
  have hns : ((simhashDedupe chunks cfg).1.map Chunk.id
      ++ (simhashDedupe chunks cfg).2.map DroppedChunk.chunkId).Nodup := hps.nodup_iff.2 hnodup
  set ekI := (exactHashDedupe chunks).1.map Chunk.id with hekI
  set edI := (exactHashDedupe chunks).2.map DroppedChunk.chunkId with hedI
  set skI := (simhashDedupe chunks cfg).1.map Chunk.id with hskI
  set sdI := (simhashDedupe chunks cfg).2.map DroppedChunk.chunkId with hsdI
  set F := (chunks.map Chunk.id).toFinset with hFdef
  have hFe : ekI.toFinset ∪ edI.toFinset = F := by
    rw [← List.toFinset_append]
    exact List.toFinset_eq_of_perm _ _ hpe
  have hFs : skI.toFinset ∪ sdI.toFinset = F := by
    rw [← List.toFinset_append]
    exact List.toFinset_eq_of_perm _ _ hps
  have hde : Disjoint ekI.toFinset edI.toFinset :=
    List.disjoint_toFinset_iff_disjoint.2 (List.disjoint_of_nodup_append hne)
  have hds : Disjoint skI.toFinset sdI.toFinset :=
    List.disjoint_toFinset_iff_disjoint.2 (List.disjoint_of_nodup_append hns)
  have hmem_ed : ∀ a, a ∈ edI.toFinset ↔ a ∈ F ∧ a ∉ ekI.toFinset := by
    intro a
    constructor
    · intro h
      exact ⟨hFe ▸ Finset.mem_union_right _ h, fun hk => Finset.disjoint_left.1 hde hk h⟩
    · rintro ⟨hf, hnk⟩
      rcases Finset.mem_union.1 (hFe ▸ hf) with h | h
      · exact absurd h hnk
      · exact h
  have hmem_sd : ∀ a, a ∈ sdI.toFinset ↔ a ∈ F ∧ a ∉ skI.toFinset := by
    intro a
    constructor
    · intro h
      exact ⟨hFs ▸ Finset.mem_union_right _ h, fun hk => Finset.disjoint_left.1 hds hk h⟩
    · rintro ⟨hf, hnk⟩
      rcases Finset.mem_union.1 (hFs ▸ hf) with h | h
      · exact absurd h hnk
      · exact h
  -- the kept side
  set p : GoStr → Bool := fun id =>
    keptIdMem (exactHashDedupe chunks).1 id && keptIdMem (simhashDedupe chunks cfg).1 id with hp
  have hkept : (chunks.filter fun c => keptIdMem (exactHashDedupe chunks).1 c.id
      && keptIdMem (simhashDedupe chunks cfg).1 c.id).length
      = (Finset.filter (fun a => p a = true) F).card := by
    have h1 : ((chunks.map Chunk.id).filter p).length
        = (chunks.filter fun c => keptIdMem (exactHashDedupe chunks).1 c.id
            && keptIdMem (simhashDedupe chunks cfg).1 c.id).length := by
      rw [List.filter_map, List.length_map]
      rfl
    rw [← h1]
    rw [← List.toFinset_card_of_nodup (hnodup.filter p), List.toFinset_filter]
  -- the merged side
  obtain ⟨hUnd, hUids, -⟩ :=
    mergeDropped_spec ((exactHashDedupe chunks).2 ++ (simhashDedupe chunks cfg).2)
  have hUlen : (mergeDropped ((exactHashDedupe chunks).2 ++ (simhashDedupe chunks cfg).2)).length
      = (edI.toFinset ∪ sdI.toFinset).card := by
    rw [← List.toFinset_append]
    have hlen : (mergeDropped ((exactHashDedupe chunks).2
        ++ (simhashDedupe chunks cfg).2)).length
        = ((mergeDropped ((exactHashDedupe chunks).2
          ++ (simhashDedupe chunks cfg).2)).map DroppedChunk.chunkId).length := by
      rw [List.length_map]
    rw [hlen, ← List.toFinset_card_of_nodup hUnd]
    congr 1
    apply Finset.ext
    intro a
    rw [List.mem_toFinset, List.mem_toFinset, hUids]
    rw [hedI, hsdI, ← List.map_append]
  -- the union is the complement of the kept filter
  have hcompl : edI.toFinset ∪ sdI.toFinset = Finset.filter (fun a => ¬ p a = true) F := by
    apply Finset.ext
    intro a
    rw [Finset.mem_union, hmem_ed a, hmem_sd a, Finset.mem_filter]
    have hpa : p a = true ↔ a ∈ ekI.toFinset ∧ a ∈ skI.toFinset := by
      rw [hp]
      simp only [Bool.and_eq_true, keptIdMem_iff, List.mem_toFinset, hekI, hskI]
    rw [hpa]
    tauto
  rw [hkept, hUlen, hcompl, Finset.filter_card_add_filter_neg_card_eq_card]
  rw [hFdef, List.toFinset_card_of_nodup hnodup, List.length_map]

/-- Counterexample to C3 as frozen: for an input chunk sequence with two
chunks sharing one id under `method = both`, the final statistics violate
`kept_count + dropped_count == input_count` (both copies are kept — each id
passes both per-id kept maps — yet one merged dropped record remains). -/

theorem dedupe_stats_counterexample :
    ¬ ((Dedupe [⟨[5], [97], [97], 0⟩, ⟨[5], [97], [97], 1⟩] ⟨"both", 1, 0, 0⟩).stats.keptCount
        + (Dedupe [⟨[5], [97], [97], 0⟩, ⟨[5], [97], [97], 1⟩] ⟨"both", 1, 0, 0⟩).stats.droppedCount
      = (Dedupe [⟨[5], [97], [97], 0⟩, ⟨[5], [97], [97], 1⟩] ⟨"both", 1, 0, 0⟩).stats.inputCount) := by
  decide

/-- **C3** (amended).  For every input chunk sequence whose ids are pairwise
distinct, and every configuration (methods `exact`, `simhash`, `both`, and
unknown values, which validate to `simhash`), the statistics satisfy
`kept_count + dropped_count = input_count` and
`exact_dups + near_dups = dropped_count`, the last two recomputed from the
reasons of the final dropped sequence.  (Without distinct ids the first
invariant fails in `both` mode; see the counterexample.) -/

theorem dedupe_stats_invariants (chunks : List Chunk) (config : Config)
    (hnodup : (chunks.map Chunk.id).Nodup) :
    (Dedupe chunks config).stats.keptCount + (Dedupe chunks config).stats.droppedCount
        = (Dedupe chunks config).stats.inputCount
    ∧ (Dedupe chunks config).stats.exactDups + (Dedupe chunks config).stats.nearDups
        = (Dedupe chunks config).stats.droppedCount := by
  by_cases hc : chunks = []
  · subst hc
    simp [Dedupe]
  · rcases validate_method config with hm | hm | hm
    · simp only [Dedupe, if_neg hc, hm, eq_self_iff_true, if_true]
      constructor
      · have h := exactHashDedupe_length chunks
        omega
      · exact countReason_total _ fun r hr => Or.inl (exactHashDedupe_dropped chunks r hr).1
    · simp only [Dedupe, if_neg hc, hm,
        if_neg (show ¬ ("simhash" : String) = "exact" by decide), eq_self_iff_true, if_true]
      constructor
      · have h1 := exactHashDedupe_length chunks
        have h2 := simhashDedupe_length (exactHashDedupe chunks).1 config.validate
        simp only [List.length_append]
        push_cast
        omega
      · refine countReason_total _ fun r hr => ?_
        rcases List.mem_append.1 hr with hr | hr
        · exact Or.inl (exactHashDedupe_dropped chunks r hr).1
        · exact Or.inr (simhashDedupe_dropped _ _ r hr).1
    · simp only [Dedupe, if_neg hc, hm,
        if_neg (show ¬ ("both" : String) = "exact" by decide),
        if_neg (show ¬ ("both" : String) = "simhash" by decide), eq_self_iff_true, if_true]
      constructor
      · have h := bothMode_count chunks config.validate hnodup
        omega
      · refine countReason_total _ fun r hr => ?_
        have hsub := (mergeDropped_spec
          ((exactHashDedupe chunks).2 ++ (simhashDedupe chunks config.validate).2)).2.2 r hr
        rcases List.mem_append.1 hsub.1 with hr' | hr'
        · exact Or.inl (exactHashDedupe_dropped chunks r hr').1
        · exact Or.inr (simhashDedupe_dropped _ _ r hr').1

/-- Witness for C3 at a concrete three-chunk input with distinct ids under
`method = both`. -/

theorem dedupe_stats_invariants_witness :
    (([⟨[1], [97], [97], 0⟩, ⟨[2], [97], [97], 1⟩, ⟨[3], [98, 99], [98, 99], 2⟩].map
        Chunk.id).Nodup : Prop)
    ∧ ((Dedupe [⟨[1], [97], [97], 0⟩, ⟨[2], [97], [97], 1⟩, ⟨[3], [98, 99], [98, 99], 2⟩]
          ⟨"both", 1, 0, 0⟩).stats.keptCount
        + (Dedupe [⟨[1], [97], [97], 0⟩, ⟨[2], [97], [97], 1⟩, ⟨[3], [98, 99], [98, 99], 2⟩]
          ⟨"both", 1, 0, 0⟩).stats.droppedCount
        = (Dedupe [⟨[1], [97], [97], 0⟩, ⟨[2], [97], [97], 1⟩, ⟨[3], [98, 99], [98, 99], 2⟩]
          ⟨"both", 1, 0, 0⟩).stats.inputCount
      ∧ (Dedupe [⟨[1], [97], [97], 0⟩, ⟨[2], [97], [97], 1⟩, ⟨[3], [98, 99], [98, 99], 2⟩]
          ⟨"both", 1, 0, 0⟩).stats.exactDups
        + (Dedupe [⟨[1], [97], [97], 0⟩, ⟨[2], [97], [97], 1⟩, ⟨[3], [98, 99], [98, 99], 2⟩]
          ⟨"both", 1, 0, 0⟩).stats.nearDups
        = (Dedupe [⟨[1], [97], [97], 0⟩, ⟨[2], [97], [97], 1⟩, ⟨[3], [98, 99], [98, 99], 2⟩]
          ⟨"both", 1, 0, 0⟩).stats.droppedCount) :=
  ⟨by decide, dedupe_stats_invariants _ _ (by decide)⟩

/-- **C2.**  Under `method = both` on an input with pairwise-distinct chunk
ids (as the chunker produces), the exact-hash pass and the SimHash pass run
independently on the original chunk sequence and: a chunk appears in `kept`
iff it survives both; the dropped sequence has no two records with the same
chunk id; each of its records is one of the two runs' records, of minimal
distance among all records with its chunk id; every dropped id of either run
is covered; a record whose id was dropped by the exact pass is the exact
record (exact wins over near for the same id); and `kept` preserves the
original input order. -/

theorem dedupe_both_mode (chunks : List Chunk) (config : Config)
    (hmethod : config.method = "both")
    (hnodup : (chunks.map Chunk.id).Nodup) :
    (∀ c, c ∈ (Dedupe chunks config).keptChunks
      ↔ c ∈ chunks ∧ c ∈ (exactHashDedupe chunks).1
          ∧ c ∈ (simhashDedupe chunks config.validate).1)
    ∧ ((Dedupe chunks config).dropped.map DroppedChunk.chunkId).Nodup
    ∧ (∀ r ∈ (Dedupe chunks config).dropped,
        r ∈ (exactHashDedupe chunks).2 ++ (simhashDedupe chunks config.validate).2
        ∧ ∀ r' ∈ (exactHashDedupe chunks).2 ++ (simhashDedupe chunks config.validate).2,
            r'.chunkId = r.chunkId → r.distance ≤ r'.distance)
    ∧ (∀ r' ∈ (exactHashDedupe chunks).2 ++ (simhashDedupe chunks config.validate).2,
        ∃ r ∈ (Dedupe chunks config).dropped, r.chunkId = r'.chunkId)
    ∧ (∀ r ∈ (Dedupe chunks config).dropped,
        (∃ e ∈ (exactHashDedupe chunks).2, e.chunkId = r.chunkId)
        → r ∈ (exactHashDedupe chunks).2)
    ∧ (Dedupe chunks config).keptChunks.Sublist chunks := by
  have hm := validate_method_both config hmethod
  by_cases hc : chunks = []
  · subst hc
    simp [Dedupe, exactHashDedupe, simhashDedupe]
  · simp only [Dedupe, if_neg hc, hm,
      if_neg (show ¬ ("both" : String) = "exact" by decide),
      if_neg (show ¬ ("both" : String) = "simhash" by decide), eq_self_iff_true, if_true]
    obtain ⟨hUnd, hUids, hUmin⟩ :=
      mergeDropped_spec ((exactHashDedupe chunks).2 ++ (simhashDedupe chunks config.validate).2)
    refine ⟨?_, hUnd, hUmin, ?_, ?_, List.filter_sublist chunks⟩
    · intro c
      rw [List.mem_filter]
      constructor
      · rintro ⟨hcm, hp⟩
        rw [Bool.and_eq_true, keptIdMem_iff, keptIdMem_iff] at hp
        rcases List.mem_map.1 hp.1 with ⟨x, hx, hxid⟩
        rcases List.mem_map.1 hp.2 with ⟨y, hy, hyid⟩
        have hx' : x = c := List.inj_on_of_nodup_map hnodup
          ((exactHashDedupe_sublist chunks).subset hx) hcm hxid
        have hy' : y = c := List.inj_on_of_nodup_map hnodup
          (simhashDedupe_kept_mem chunks config.validate y hy) hcm hyid
        exact ⟨hcm, hx' ▸ hx, hy' ▸ hy⟩
      · rintro ⟨hcm, hek, hsk⟩
        refine ⟨hcm, ?_⟩
        rw [Bool.and_eq_true, keptIdMem_iff, keptIdMem_iff]
        exact ⟨List.mem_map_of_mem Chunk.id hek, List.mem_map_of_mem Chunk.id hsk⟩
    · intro r' hr'
      have : r'.chunkId ∈ (mergeDropped ((exactHashDedupe chunks).2
          ++ (simhashDedupe chunks config.validate).2)).map DroppedChunk.chunkId :=
        (hUids r'.chunkId).2 (List.mem_map_of_mem DroppedChunk.chunkId hr')
      rcases List.mem_map.1 this with ⟨r, hr, hrid⟩
      exact ⟨r, hr, hrid⟩
    · exact mergeDropped_first_wins _ _
        (fun r hr => (exactHashDedupe_dropped chunks r hr).2)
        (fun r hr => (simhashDedupe_dropped chunks config.validate r hr).2)

/-- Witness for C2 at a concrete input, both hypotheses discharged by
evaluation. -/

theorem dedupe_both_mode_witness :
    (c2Cfg.method = "both" ∧ (c2Chunks.map Chunk.id).Nodup)
    ∧ ((∀ c, c ∈ (Dedupe c2Chunks c2Cfg).keptChunks
        ↔ c ∈ c2Chunks ∧ c ∈ (exactHashDedupe c2Chunks).1
            ∧ c ∈ (simhashDedupe c2Chunks c2Cfg.validate).1)
      ∧ ((Dedupe c2Chunks c2Cfg).dropped.map DroppedChunk.chunkId).Nodup
      ∧ (∀ r ∈ (Dedupe c2Chunks c2Cfg).dropped,
          r ∈ (exactHashDedupe c2Chunks).2 ++ (simhashDedupe c2Chunks c2Cfg.validate).2
          ∧ ∀ r' ∈ (exactHashDedupe c2Chunks).2 ++ (simhashDedupe c2Chunks c2Cfg.validate).2,
              r'.chunkId = r.chunkId → r.distance ≤ r'.distance)
      ∧ (∀ r' ∈ (exactHashDedupe c2Chunks).2 ++ (simhashDedupe c2Chunks c2Cfg.validate).2,
          ∃ r ∈ (Dedupe c2Chunks c2Cfg).dropped, r.chunkId = r'.chunkId)
      ∧ (∀ r ∈ (Dedupe c2Chunks c2Cfg).dropped,
          (∃ e ∈ (exactHashDedupe c2Chunks).2, e.chunkId = r.chunkId)
          → r ∈ (exactHashDedupe c2Chunks).2)
      ∧ (Dedupe c2Chunks c2Cfg).keptChunks.Sublist c2Chunks) :=
  ⟨⟨by decide, by decide⟩, dedupe_both_mode c2Chunks c2Cfg (by decide) (by decide)⟩

example : Normalize [72, 101, 108, 108, 111, 44, 32, 32, 32, 87, 79, 82, 76, 68, 33, 10, 10, 10]
    = [104, 101, 108, 108, 111, 32, 119, 111, 114, 108, 100] := by decide

/-- Counterexample to C5 as frozen: `Normalize` is not idempotent.  On
`"a . b"` the period is removed only after space runs were collapsed, leaving
`"a  b"` with a double space, which a second application collapses to
`"a b"`. -/

theorem normalize_not_idempotent :
    Normalize (Normalize [97, 32, 46, 32, 98]) ≠ Normalize [97, 32, 46, 32, 98] := by
  decide

/-! ## Idempotence analysis of Normalize (claim C5) -/

theorem goToLower_idem (c : Nat) : goToLower (goToLower c) = goToLower c := by
  unfold goToLower
  split_ifs <;> omega

theorem map_fix {f : Nat → Nat} : ∀ l : GoStr, (∀ a ∈ l, f a = a) → l.map f = l
  | [], _ => rfl
  | c :: rest, h => by
    rw [List.map_cons, h c (List.mem_cons_self c rest),
      map_fix rest fun a ha => h a (List.mem_cons_of_mem _ ha)]

/-- Characters of the collapsed string: the replacement or input characters. -/

theorem collapseRunsAux_chars (p : Nat → Bool) (rep : Nat) :
    ∀ (b : Bool) (l : GoStr), ∀ x ∈ collapseRunsAux p rep b l, x = rep ∨ x ∈ l
  | _, [], x => by simp [collapseRunsAux]
  | true, c :: rest, x => by
    unfold collapseRunsAux
    split_ifs with hc <;> intro hx
    · rcases collapseRunsAux_chars p rep true rest x hx with h | h
      · exact Or.inl h
      · exact Or.inr (List.mem_cons_of_mem _ h)
    · rcases List.mem_cons.1 hx with rfl | hx
      · exact Or.inr (List.mem_cons_self _ _)
      · rcases collapseRunsAux_chars p rep false rest x hx with h | h
        · exact Or.inl h
        · exact Or.inr (List.mem_cons_of_mem _ h)
  | false, c :: rest, x => by
    unfold collapseRunsAux
    split_ifs with hc <;> intro hx
    · rcases List.mem_cons.1 hx with rfl | hx
      · exact Or.inl rfl
      · rcases collapseRunsAux_chars p rep true rest x hx with h | h
        · exact Or.inl h
        · exact Or.inr (List.mem_cons_of_mem _ h)
    · rcases List.mem_cons.1 hx with rfl | hx
      · exact Or.inr (List.mem_cons_self _ _)
      · rcases collapseRunsAux_chars p rep false rest x hx with h | h
        · exact Or.inl h
        · exact Or.inr (List.mem_cons_of_mem _ h)

/-- The head emitted from inside a run is not a `p`-character. -/

theorem collapseRunsAux_head_true (p : Nat → Bool) (rep : Nat) :
    ∀ (l : GoStr) (h : Nat), (collapseRunsAux p rep true l).head? = some h → p h = false
  | [], h => by simp [collapseRunsAux]
  | c :: rest, h => by
    unfold collapseRunsAux
    split_ifs with hc
    · exact collapseRunsAux_head_true p rep rest h
    · intro hh
      rw [List.head?_cons, Option.some.injEq] at hh
      rw [← hh]
      exact Bool.eq_false_iff.2 hc

/-- Head of the collapsed string from outside a run. -/

theorem collapseRunsAux_head_false (p : Nat → Bool) (rep : Nat) (l : GoStr) :
    (collapseRunsAux p rep false l).head? = l.head?.map fun c => if p c then rep else c := by
  cases l with
  | nil => rfl
  | cons c rest =>
    unfold collapseRunsAux
    split_ifs with hc <;> simp [hc]

/-- The collapsed string never has two adjacent `p`-characters. -/

theorem collapseRunsAux_noRun (p : Nat → Bool) (rep : Nat) :
    ∀ (b : Bool) (l : GoStr),
      (collapseRunsAux p rep b l).Chain' fun a b => ¬(p a = true ∧ p b = true)
  | _, [] => by simp [collapseRunsAux]
  | true, c :: rest => by
    unfold collapseRunsAux
    split_ifs with hc
    · exact collapseRunsAux_noRun p rep true rest
    · rw [List.chain'_cons']
      refine ⟨fun h hh hpair => ?_, collapseRunsAux_noRun p rep false rest⟩
      exact absurd hpair.1 hc
  | false, c :: rest => by
    unfold collapseRunsAux
    split_ifs with hc
    · rw [List.chain'_cons']
      refine ⟨fun h hh hpair => ?_, collapseRunsAux_noRun p rep true rest⟩
      rw [collapseRunsAux_head_true p rep rest h hh] at hpair
      exact Bool.false_ne_true hpair.2
    · rw [List.chain'_cons']
      refine ⟨fun h hh hpair => ?_, collapseRunsAux_noRun p rep false rest⟩
      exact absurd hpair.1 hc

/-- On a string whose `p`-characters are all `rep` and never adjacent, the
collapse is the identity. -/

theorem collapseRunsAux_id (p : Nat → Bool) (rep : Nat) :
    ∀ l : GoStr, (∀ c ∈ l, p c = true → c = rep)
      → l.Chain' (fun a b => ¬(p a = true ∧ p b = true))
      → collapseRunsAux p rep false l = l
  | [], _, _ => rfl
  | c :: rest, hall, hch => by
    unfold collapseRunsAux
    split_ifs with hc
    · have hcrep : c = rep := hall c (List.mem_cons_self c rest) hc
      have htail : collapseRunsAux p rep true rest = collapseRunsAux p rep false rest := by
        cases rest with
        | nil => rfl
        | cons x t =>
          have hnp : p x = false := by
            cases hpx : p x
            · rfl
            · exact absurd ⟨hc, hpx⟩ (List.chain'_cons.1 hch).1
          show (if p x = true then collapseRunsAux p rep true t
              else x :: collapseRunsAux p rep false t)
            = if p x = true then rep :: collapseRunsAux p rep true t
              else x :: collapseRunsAux p rep false t
          rw [hnp]
          simp
      rw [htail, hcrep,
        collapseRunsAux_id p rep rest (fun a ha hpa => hall a (List.mem_cons_of_mem _ ha) hpa)
          hch.tail]
    · rw [collapseRunsAux_id p rep rest
        (fun a ha hpa => hall a (List.mem_cons_of_mem _ ha) hpa) hch.tail]

/-- The collapse preserves any chain relation that accepts the replacement
character on either side. -/

theorem collapseRunsAux_chain' {R : Nat → Nat → Prop} (p : Nat → Bool) (rep : Nat)
    (h1 : ∀ a, R a rep) (h2 : ∀ a, R rep a) :
    ∀ (b : Bool) (l : GoStr), l.Chain' R → (collapseRunsAux p rep b l).Chain' R
  | _, [], _ => by simp [collapseRunsAux]
  | true, c :: rest, hch => by
    unfold collapseRunsAux
    split_ifs with hc
    · exact collapseRunsAux_chain' p rep h1 h2 true rest hch.tail
    · rw [List.chain'_cons']
      refine ⟨fun h hh => ?_, collapseRunsAux_chain' p rep h1 h2 false rest hch.tail⟩
      rw [collapseRunsAux_head_false] at hh
      cases rest with
      | nil => simp at hh
      | cons r t =>
        rw [List.head?_cons,
          show Option.map (fun c => if p c = true then rep else c) (some r)
            = some (if p r = true then rep else r) from rfl,
          Option.mem_def, Option.some.injEq] at hh
        by_cases hpr : p r = true
        · rw [if_pos hpr] at hh
          exact hh ▸ h1 c
        · rw [if_neg hpr] at hh
          exact hh ▸ (List.chain'_cons.1 hch).1
  | false, c :: rest, hch => by
    unfold collapseRunsAux
    split_ifs with hc
    · rw [List.chain'_cons']
      refine ⟨fun h hh => h2 h, collapseRunsAux_chain' p rep h1 h2 true rest hch.tail⟩
    · rw [List.chain'_cons']
      refine ⟨fun h hh => ?_, collapseRunsAux_chain' p rep h1 h2 false rest hch.tail⟩
      rw [collapseRunsAux_head_false] at hh
      cases rest with
      | nil => simp at hh
      | cons r t =>
        rw [List.head?_cons,
          show Option.map (fun c => if p c = true then rep else c) (some r)
            = some (if p r = true then rep else r) from rfl,
          Option.mem_def, Option.some.injEq] at hh
        by_cases hpr : p r = true
        · rw [if_pos hpr] at hh
          exact hh ▸ h1 c
        · rw [if_neg hpr] at hh
          exact hh ▸ (List.chain'_cons.1 hch).1

theorem head?_dropWhile_not (p : Nat → Bool) :
    ∀ (l : GoStr) (h : Nat), (l.dropWhile p).head? = some h → p h = false
  | [], h => by simp [List.dropWhile]
  | c :: rest, h => by
    rw [List.dropWhile_cons]
    split_ifs with hc
    · exact head?_dropWhile_not p rest h
    · intro hh
      rw [List.head?_cons, Option.some.injEq] at hh
      rw [← hh]
      exact Bool.eq_false_iff.2 hc

theorem trimSpace_head (l : GoStr) (h : Nat)
    (hh : (trimSpace l).head? = some h) : goIsSpace h = false := by
  unfold trimSpace at hh
  rw [List.head?_reverse] at hh
  have hbne : (l.dropWhile goIsSpace).reverse.dropWhile goIsSpace ≠ [] := by
    intro h0
    rw [h0] at hh
    simp at hh
  have hsuf : (l.dropWhile goIsSpace).reverse.dropWhile goIsSpace
      <:+ (l.dropWhile goIsSpace).reverse := List.dropWhile_suffix goIsSpace
  obtain ⟨t, ht⟩ := hsuf
  have h1 : ((l.dropWhile goIsSpace).reverse).getLast?
      = ((l.dropWhile goIsSpace).reverse.dropWhile goIsSpace).getLast? := by
    conv_lhs => rw [← ht]
    exact List.getLast?_append_of_ne_nil t hbne
  rw [← h1, List.getLast?_reverse] at hh
  exact head?_dropWhile_not goIsSpace l h hh

theorem trimSpace_last (l : GoStr) (h : Nat)
    (hh : (trimSpace l).getLast? = some h) : goIsSpace h = false := by
  unfold trimSpace at hh
  rw [List.getLast?_reverse] at hh
  exact head?_dropWhile_not goIsSpace _ h hh

theorem trimSpace_eq_self (l : GoStr)
    (hhead : ∀ h, l.head? = some h → goIsSpace h = false)
    (hlast : ∀ h, l.getLast? = some h → goIsSpace h = false) :
    trimSpace l = l := by
  unfold trimSpace
  have h1 : l.dropWhile goIsSpace = l := by
    cases l with
    | nil => rfl
    | cons c rest =>
      have hn : ¬ (goIsSpace c = true) := by
        rw [hhead c rfl]
        exact Bool.false_ne_true
      rw [List.dropWhile_cons, if_neg hn]
  rw [h1]
  have h2 : l.reverse.dropWhile goIsSpace = l.reverse := by
    cases hr : l.reverse with
    | nil => simp
    | cons c rest =>
      have hc : l.getLast? = some c := by
        rw [← List.head?_reverse, hr, List.head?_cons]
      have hn : ¬ (goIsSpace c = true) := by
        rw [hlast c hc]
        exact Bool.false_ne_true
      rw [List.dropWhile_cons, if_neg hn]
  rw [h2, List.reverse_reverse]

theorem chain'_reverse_of_symm {R : Nat → Nat → Prop} (hs : ∀ a b, R a b → R b a)
    {l : GoStr} (h : l.Chain' R) : l.reverse.Chain' R := by
  rw [List.chain'_reverse]
  exact List.Chain'.imp (fun a b hab => hs a b hab) h

theorem trimSpace_chain' {R : Nat → Nat → Prop} (hs : ∀ a b, R a b → R b a)
    {l : GoStr} (h : l.Chain' R) : (trimSpace l).Chain' R := by
  unfold trimSpace
  exact chain'_reverse_of_symm hs
    ((chain'_reverse_of_symm hs (h.suffix (List.dropWhile_suffix _))).suffix
      (List.dropWhile_suffix _))

theorem trimSpace_subset (l : GoStr) : ∀ x ∈ trimSpace l, x ∈ l := by
  intro x hx
  unfold trimSpace at hx
  rw [List.mem_reverse] at hx
  have hx2 := (List.dropWhile_suffix goIsSpace).subset hx
  rw [List.mem_reverse] at hx2
  exact (List.dropWhile_suffix goIsSpace).subset hx2

theorem collapseRuns_chars (p : Nat → Bool) (rep : Nat) (l : GoStr) :
    ∀ x ∈ collapseRuns p rep l, x = rep ∨ x ∈ l := collapseRunsAux_chars p rep false l

theorem collapseRuns_noRun (p : Nat → Bool) (rep : Nat) (l : GoStr) :
    (collapseRuns p rep l).Chain' fun a b => ¬(p a = true ∧ p b = true) :=
  collapseRunsAux_noRun p rep false l

theorem collapseRuns_id (p : Nat → Bool) (rep : Nat) (l : GoStr)
    (h1 : ∀ c ∈ l, p c = true → c = rep)
    (h2 : l.Chain' fun a b => ¬(p a = true ∧ p b = true)) :
    collapseRuns p rep l = l := collapseRunsAux_id p rep l h1 h2

theorem collapseRuns_chain' {R : Nat → Nat → Prop} (p : Nat → Bool) (rep : Nat)
    (h1 : ∀ a, R a rep) (h2 : ∀ a, R rep a) (l : GoStr) (h : l.Chain' R) :
    (collapseRuns p rep l).Chain' R := collapseRunsAux_chain' p rep h1 h2 false l h

/-- Every character of a normalized string is kept and lowercase-fixed. -/

theorem normalize_chars (x : GoStr) :
    ∀ c ∈ Normalize x, keepRune c = true ∧ goToLower c = c := by
  intro c hc
  unfold Normalize at hc
  split_ifs at hc with hx
  · simp at hc
  · have h1 := trimSpace_subset _ c hc
    rw [List.mem_filter] at h1
    refine ⟨h1.2, ?_⟩
    rcases collapseRuns_chars isNL 10 _ c h1.1 with rfl | h2
    · decide
    · rcases collapseRuns_chars isSpaceTab 32 _ c h2 with rfl | h3
      · decide
      · rcases List.mem_map.1 h3 with ⟨a, -, rfl⟩
        exact goToLower_idem a

/-- A normalized string of kept, lowercase-fixed characters is canonical. -/

theorem normalize_canon (y : GoStr)
    (hy : ∀ c ∈ y, keepRune c = true ∧ goToLower c = c) :
    CanonStr (Normalize y) := by
  by_cases hy0 : y = []
  · subst hy0
    refine ⟨normalize_chars [], ?_, ?_, ?_, ?_⟩ <;> simp [Normalize]
  · have hmap : y.map goToLower = y := map_fix y fun a ha => (hy a ha).2
    have hvkeep : ∀ c ∈ collapseRuns isNL 10 (collapseRuns isSpaceTab 32 y),
        keepRune c = true ∧ goToLower c = c := by
      intro c hcv
      rcases collapseRuns_chars isNL 10 _ c hcv with rfl | h2
      · exact ⟨by decide, by decide⟩
      · rcases collapseRuns_chars isSpaceTab 32 _ c h2 with rfl | h3
        · exact ⟨by decide, by decide⟩
        · exact hy c h3
    have hfv : (collapseRuns isNL 10 (collapseRuns isSpaceTab 32 y)).filter keepRune
        = collapseRuns isNL 10 (collapseRuns isSpaceTab 32 y) :=
      List.filter_eq_self.2 fun a ha => (hvkeep a ha).1
    have hnorm : Normalize y
        = trimSpace (collapseRuns isNL 10 (collapseRuns isSpaceTab 32 y)) := by
      unfold Normalize
      rw [if_neg hy0, hmap, hfv]
    have hsymm_st : ∀ a b, (¬(isSpaceTab a = true ∧ isSpaceTab b = true))
        → ¬(isSpaceTab b = true ∧ isSpaceTab a = true) :=
      fun a b hab ⟨u, v⟩ => hab ⟨v, u⟩
    have hsymm_nl : ∀ a b, (¬(isNL a = true ∧ isNL b = true))
        → ¬(isNL b = true ∧ isNL a = true) :=
      fun a b hab ⟨u, v⟩ => hab ⟨v, u⟩
    have hchain_st : (collapseRuns isNL 10 (collapseRuns isSpaceTab 32 y)).Chain'
        fun a b => ¬(isSpaceTab a = true ∧ isSpaceTab b = true) := by
      refine collapseRuns_chain' isNL 10 ?_ ?_ _ (collapseRuns_noRun isSpaceTab 32 y)
      · intro a h
        exact absurd h.2 (by decide)
      · intro a h
        exact absurd h.1 (by decide)
    have hchain_nl : (collapseRuns isNL 10 (collapseRuns isSpaceTab 32 y)).Chain'
        fun a b => ¬(isNL a = true ∧ isNL b = true) :=
      collapseRuns_noRun isNL 10 _
    rw [hnorm]
    refine ⟨?_, trimSpace_chain' hsymm_st hchain_st, trimSpace_chain' hsymm_nl hchain_nl,
      trimSpace_head _, trimSpace_last _⟩
    intro c hc
    exact hvkeep c (trimSpace_subset _ c hc)

/-- `Normalize` fixes canonical strings. -/

theorem normalize_fixed (w : GoStr) (h : CanonStr w) : Normalize w = w := by
  by_cases hw0 : w = []
  · subst hw0
    rfl
  · obtain ⟨hkeep, hst, hnl, hhead, hlast⟩ := h
    have hmap : w.map goToLower = w := map_fix w fun a ha => (hkeep a ha).2
    have hcst : collapseRuns isSpaceTab 32 w = w := by
      refine collapseRuns_id isSpaceTab 32 w ?_ hst
      intro c hc hsc
      have h9 : c = 32 ∨ c = 9 := by
        simpa [isSpaceTab] using hsc
      rcases h9 with rfl | rfl
      · rfl
      · exact absurd (hkeep 9 hc).1 (by decide)
    have hcnl : collapseRuns isNL 10 w = w := by
      refine collapseRuns_id isNL 10 w ?_ hnl
      intro c hc hsc
      simpa [isNL] using hsc
    have hfil : w.filter keepRune = w := List.filter_eq_self.2 fun a ha => (hkeep a ha).1
    unfold Normalize
    rw [if_neg hw0, hmap, hcst, hcnl, hfil]
    exact trimSpace_eq_self w hhead hlast

/-- **C5** (amended).  `Normalize` is not idempotent (see the counterexample:
removing a discarded code point can merge two space runs), but one further
application reaches a fixed point: for every string `s`,
`Normalize (Normalize (Normalize s)) = Normalize (Normalize s)` — i.e. the
composition of two normalizations is idempotent. -/

theorem normalize_normalize_fixed (s : GoStr) :
    Normalize (Normalize (Normalize s)) = Normalize (Normalize s) :=
  normalize_fixed _ (normalize_canon _ (normalize_chars s))

/-- **C6** (counterexample).  `ChunkText` performs no line-ending conversion at
all: on `"a\rb"` (no newline anywhere, so no blank-line separator) the single
chunk keeps the raw `\r` in its text, while pre-replacing `\r` by `\n` yields a
chunk text containing `\n` instead — the chunk texts differ. -/

theorem chunkText_cr_counterexample :
    (ChunkText (replaceCRLF [97, 13, 98]) 0).map Chunk.text
      ≠ (ChunkText [97, 13, 98] 0).map Chunk.text := by
  decide

theorem replaceCRLF_id (s : GoStr) (h : ¬ 13 ∈ s) : replaceCRLF s = s := by
  induction s with
  | nil => rfl
  | cons c rest ih =>
    have hc : ¬ c = 13 := fun hc13 => h (hc13 ▸ List.mem_cons_self c rest)
    have hrest : ¬ 13 ∈ rest := fun hr => h (List.mem_cons_of_mem c hr)
    match rest with
    | [] =>
      simp [replaceCRLF, hc]
    | d :: rest2 =>
      rw [replaceCRLF, if_neg hc, ih hrest]

/-- **C6** (amended).  The chunker does not treat `\r\n` or lone `\r` as line
breaks (see the counterexample), but on carriage-return-free inputs the claimed
pre-replacement is the identity, so chunking commutes with it there: for every
`s` not containing `\r` and every `minChars`,
`ChunkText (replaceCRLF s) minChars = ChunkText s minChars`. -/

theorem chunkText_replaceCRLF (s : GoStr) (minChars : Int) (h : ¬ 13 ∈ s) :
    ChunkText (replaceCRLF s) minChars = ChunkText s minChars := by
  rw [replaceCRLF_id s h]

theorem chunkText_replaceCRLF_witness :
    ¬ 13 ∈ ([97, 10, 10, 98] : GoStr)
      ∧ ChunkText (replaceCRLF [97, 10, 10, 98]) 1 = ChunkText [97, 10, 10, 98] 1 :=
  ⟨by decide, chunkText_replaceCRLF [97, 10, 10, 98] 1 (by decide)⟩

/-- **C8** (counterexample).  With `min_chunk_chars = 0` the all-whitespace
input `" "` yields one chunk (with empty text): the single segment trims to the
empty string, whose length 0 is not `< 0`, so it is kept. -/

theorem chunkText_whitespace_counterexample : ChunkText [32] 0 ≠ [] := by
  decide

theorem splitBlankAux_chars (s : GoStr) : ∀ mode (cur : GoStr),
    ∀ seg ∈ splitBlankAux mode cur s, ∀ c ∈ seg, c ∈ cur ∨ c ∈ s := by
  induction s with
  | nil =>
    intro mode cur seg hseg c hc
    rcases mode with _ | _ <;>
      simp only [splitBlankAux, List.mem_singleton] at hseg <;>
      subst hseg <;>
      exact Or.inl (by simpa using hc)
  | cons a rest ih =>
    intro mode cur seg hseg c hc
    rcases mode with _ | _
    · rw [splitBlankAux] at hseg
      split_ifs at hseg with hcond
      · rcases List.mem_cons.1 hseg with rfl | hseg2
        · exact Or.inl (by simpa using hc)
        · rcases ih true [] seg hseg2 c hc with h | h
          · simp at h
          · exact Or.inr (List.mem_cons_of_mem a h)
      · rcases ih false (a :: cur) seg hseg c hc with h | h
        · rcases List.mem_cons.1 h with rfl | h2
          · exact Or.inr (List.mem_cons_self c rest)
          · exact Or.inl h2
        · exact Or.inr (List.mem_cons_of_mem a h)
    · rw [splitBlankAux] at hseg
      split_ifs at hseg with hcond
      · rcases ih true cur seg hseg c hc with h | h
        · exact Or.inl h
        · exact Or.inr (List.mem_cons_of_mem a h)
      · rcases ih false (a :: cur) seg hseg c hc with h | h
        · rcases List.mem_cons.1 h with rfl | h2
          · exact Or.inr (List.mem_cons_self c rest)
          · exact Or.inl h2
        · exact Or.inr (List.mem_cons_of_mem a h)

theorem trimSpace_allSpace (l : GoStr) (h : ∀ c ∈ l, goIsSpace c = true) :
    trimSpace l = [] := by
  have h1 : l.dropWhile goIsSpace = [] := List.dropWhile_eq_nil_iff.2 h
  simp [trimSpace, h1]

theorem segmentChunks_nil (m : Int) (segs : List GoStr)
    (h : ∀ seg ∈ segs, ((trimSpace seg).length : Int) < m) :
    ∀ idx, segmentChunks m segs idx = [] := by
  induction segs with
  | nil => intro idx; rfl
  | cons seg rest ih =>
    intro idx
    rw [segmentChunks, if_pos (h seg (List.mem_cons_self seg rest))]
    exact ih (fun s hs => h s (List.mem_cons_of_mem seg hs)) idx

/-- **C8** (amended).  Chunking the empty string yields no chunks for every
`min_chunk_chars`, and chunking an input consisting solely of whitespace yields
no chunks for every `min_chunk_chars >= 1`.  The frozen claim's remaining case
— whitespace-only input with `min_chunk_chars = 0` — is false (see the
counterexample): the empty trimmed segment has length `0`, which is not
`< 0`, so an empty-text chunk is emitted. -/

theorem chunkText_whitespace (s : GoStr) (m : Int)
    (hs : ∀ c ∈ s, goIsSpace c = true) :
    ChunkText [] m = [] ∧ (1 ≤ m → ChunkText s m = []) := by
  constructor
  · rfl
  · intro hm
    by_cases hs0 : s = []
    · subst hs0
      rfl
    · have hsegs : ∀ seg ∈ splitBlank s, ((trimSpace seg).length : Int) < m := by
        intro seg hseg
        have htrim : trimSpace seg = [] := by
          refine trimSpace_allSpace seg fun c hc => ?_
          rcases splitBlankAux_chars s false [] seg hseg c hc with h | h
          · simp at h
          · exact hs c h
        rw [htrim]
        simpa using hm
      have hchunks : segmentChunks m (splitBlank s) 0 = [] :=
        segmentChunks_nil m (splitBlank s) hsegs 0
      have htrims : trimSpace s = [] := trimSpace_allSpace s hs
      rw [ChunkText, if_neg hs0, if_neg, hchunks]
      rintro ⟨-, hlen⟩
      rw [htrims] at hlen
      simp only [List.length_nil, Nat.cast_zero] at hlen
      omega

theorem chunkText_whitespace_witness :
    (∀ c ∈ ([32, 9, 10] : GoStr), goIsSpace c = true)
      ∧ ChunkText [] 0 = [] ∧ (1 ≤ (1 : Int) → ChunkText [32, 9, 10] 1 = []) :=
  ⟨by decide, (chunkText_whitespace [32, 9, 10] 0 (by decide)).1,
    (chunkText_whitespace [32, 9, 10] 1 (by decide)).2⟩

theorem filterChrome_eq_filter (chunks : List Chunk)
    (patterns : List (Option (GoStr → Bool))) (maxLength : Int) :
    FilterChrome chunks patterns maxLength
      = chunks.filter fun ch =>
        ! (decide ((ch.norm.length : Int) < maxLength)
            && (compilePatterns patterns).any fun re => re ch.norm) := by
  rw [FilterChrome]
  split_ifs with h
  · have hp : patterns = [] := List.eq_nil_of_length_eq_zero h
    subst hp
    exact (List.filter_eq_self.2 fun a _ => by simp [compilePatterns]).symm
  · rfl

theorem compilePatterns_skip (l1 l2 : List (Option (GoStr → Bool))) :
    compilePatterns (l1 ++ none :: l2) = compilePatterns (l1 ++ l2) := by
  induction l1 with
  | nil => rfl
  | cons p rest ih =>
    rcases p with _ | re
    · simpa [compilePatterns] using ih
    · simpa [compilePatterns] using ih

/-- **C7**.  The chrome filter keeps exactly the chunks for which NOT
(`len(norm) < maxLength` and some successfully compiled pattern matches the
normalized form) — so drops are exactly the short matching chunks; the output
is a sublist of the input (original order preserved); and removing an
uncompilable pattern from the pattern list never changes the result (invalid
patterns are silently skipped and never drop anything or fail). -/

theorem filterChrome_spec (chunks : List Chunk)
    (patterns : List (Option (GoStr → Bool))) (maxLength : Int) :
    (FilterChrome chunks patterns maxLength
      = chunks.filter fun ch =>
        ! (decide ((ch.norm.length : Int) < maxLength)
            && (compilePatterns patterns).any fun re => re ch.norm))
    ∧ (FilterChrome chunks patterns maxLength).Sublist chunks
    ∧ ∀ l1 l2, patterns = l1 ++ none :: l2 →
        FilterChrome chunks patterns maxLength
          = FilterChrome chunks (l1 ++ l2) maxLength := by
  refine ⟨filterChrome_eq_filter chunks patterns maxLength, ?_, ?_⟩
  · rw [filterChrome_eq_filter]
    exact List.filter_sublist chunks
  · intro l1 l2 hp
    subst hp
    rw [filterChrome_eq_filter, filterChrome_eq_filter, compilePatterns_skip]

theorem filterChrome_spec_witness :
    FilterChrome [(⟨[99], [97], [97], 0⟩ : Chunk)] [none] 5
      = FilterChrome [(⟨[99], [97], [97], 0⟩ : Chunk)] ([] ++ []) 5 :=
  (filterChrome_spec [(⟨[99], [97], [97], 0⟩ : Chunk)] [none] 5).2.2 [] [] rfl

theorem replaceAll1310_id (l : GoStr) (h : ¬ 13 ∈ l) : replaceAll1310 l = l := by
  induction l with
  | nil => rfl
  | cons c rest ih =>
    have hc : ¬ c = 13 := fun hc13 => h (hc13 ▸ List.mem_cons_self c rest)
    have hrest : ¬ 13 ∈ rest := fun hr => h (List.mem_cons_of_mem c hr)
    match rest with
    | [] => simp [replaceAll1310]
    | d :: rest2 =>
      rw [replaceAll1310, if_neg fun hcd => hc hcd.1, ih hrest]

theorem replaceAll13_id (l : GoStr) (h : ¬ 13 ∈ l) : replaceAll13 l = l :=
  map_fix l fun a ha => if_neg fun ha13 : a = 13 => h (ha13 ▸ ha)

theorem trimRightNL_getLast (l : GoStr) :
    ∀ h, (trimRightNL l).getLast? = some h → ¬ h = 10 := by
  intro h hh
  rw [trimRightNL, List.getLast?_reverse] at hh
  have := head?_dropWhile_not (fun c => c == 10) l.reverse h hh
  simpa using this

theorem dropWhile_eq_self_no10 (l : GoStr) (h : ∀ c ∈ l, ¬ c = 10) :
    l.dropWhile (fun c => c == 10) = l := by
  match l with
  | [] => rfl
  | c :: rest =>
    rw [List.dropWhile_cons_of_neg]
    simpa using h c (List.mem_cons_self c rest)

/-- **C9** (amended).  For every title, kept sequence and `include_ids` flag the
written content is some prefix not ending in `\n` followed by exactly one
terminating `\n`; and for zero kept chunks and a title free of `\r` and `\n`
(the counterexample shows a title with embedded line breaks escapes this) the
content is exactly the H1 header line — `"# "`, the title (or
`"Extracted Notes"` when empty), one `\n` — with no error involved. -/

theorem writeMarkdown_newline (title : GoStr) (chunks : List Chunk) (ids : Bool) :
    (∃ p, writeMarkdownContent (RenderMarkdown title chunks ids) = p ++ [10]
      ∧ ∀ h, p.getLast? = some h → ¬ h = 10)
    ∧ (¬ 13 ∈ title → ¬ 10 ∈ title →
        writeMarkdownContent (RenderMarkdown title [] ids)
          = [35, 32] ++ (if title = [] then defaultTitle else title) ++ [10]) := by
  constructor
  · exact ⟨trimRightNL (replaceAll13 (replaceAll1310 (RenderMarkdown title chunks ids))),
      rfl, trimRightNL_getLast _⟩
  · intro h13 h10
    have ht : ∀ c ∈ (if title = [] then defaultTitle else title), ¬ c = 13 ∧ ¬ c = 10 := by
      split_ifs with h0
      · decide
      · exact fun c hc => ⟨fun hc13 => h13 (hc13 ▸ hc), fun hc10 => h10 (hc10 ▸ hc)⟩
    have hne : ¬ (if title = [] then defaultTitle else title) = [] := by
      split_ifs with h0
      · decide
      · exact h0
    have hcontent : RenderMarkdown title [] ids
        = [35, 32] ++ (if title = [] then defaultTitle else title) ++ [10, 10] := by
      rw [RenderMarkdown]
      simp
    rw [hcontent]
    have hno13 : ¬ 13 ∈ ([35, 32] ++ (if title = [] then defaultTitle else title) ++ [10, 10] : GoStr) := by
      intro hm
      rcases List.mem_append.1 hm with hm | hm
      · rcases List.mem_append.1 hm with hm | hm
        · simp at hm
        · exact (ht 13 hm).1 rfl
      · simp at hm
    rw [writeMarkdownContent, replaceAll1310_id _ hno13, replaceAll13_id _ hno13]
    have hrev : ([35, 32] ++ (if title = [] then defaultTitle else title) ++ [10, 10] : GoStr).reverse
        = 10 :: 10 :: ((if title = [] then defaultTitle else title).reverse ++ [32, 35]) := by
      simp
    rw [trimRightNL, hrev]
    rw [show (((10 : Nat) :: 10 :: ((if title = [] then defaultTitle else title).reverse ++ [32, 35])).dropWhile fun c => c == 10)
        = ((if title = [] then defaultTitle else title).reverse ++ [32, 35]).dropWhile fun c => c == 10 from by
      rw [List.dropWhile_cons_of_pos (by simp), List.dropWhile_cons_of_pos (by simp)]]
    rw [List.dropWhile_append]
    have hds : ((if title = [] then defaultTitle else title).reverse.dropWhile fun c => c == 10)
        = (if title = [] then defaultTitle else title).reverse := by
      refine dropWhile_eq_self_no10 _ fun c hc => ?_
      exact (ht c (List.mem_reverse.1 hc)).2
    rw [hds]
    have hrevne : ¬ (if title = [] then defaultTitle else title).reverse = [] := by
      simpa using hne
    rw [if_neg (by simpa using hrevne)]
    simp

theorem writeMarkdown_newline_witness :
    ¬ 13 ∈ ([116] : GoStr) ∧ ¬ 10 ∈ ([116] : GoStr)
      ∧ writeMarkdownContent (RenderMarkdown [116] [] false)
        = [35, 32] ++ (if ([116] : GoStr) = [] then defaultTitle else [116]) ++ [10] :=
  ⟨by decide, by decide,
    (writeMarkdown_newline [116] [] false).2 (by decide) (by decide)⟩

/-- **C9** (counterexample).  For a title that itself contains a newline
(`"\n"`), the zero-chunk written content is NOT the header line plus one
newline: the writer's trailing-newline trim eats the title's own newline, so
the content is `"# \n"` rather than `"# \n\n"`. -/

theorem renderMarkdown_counterexample :
    writeMarkdownContent (RenderMarkdown [10] [] false)
      ≠ [35, 32] ++ ([10] : GoStr) ++ [10] := by
  decide

/-! ## Concrete chunker evaluations

Cross-checks of the `splitBlank` model of `regexp.Split` on `\n\s*\n+`: a
blank-line separator needs two newlines with only whitespace between; a lone
newline, or a carriage return, is not a separator; interior whitespace of the
separator is consumed through its last newline, the remainder starting the
next segment. -/

example : splitBlank [97, 10, 10, 98] = [[97], [98]] := by decide

example : splitBlank [97, 10, 32, 10, 98] = [[97], [98]] := by decide

example : splitBlank [97, 10, 98] = [[97, 10, 98]] := by decide

example : splitBlank [97, 13, 98] = [[97, 13, 98]] := by decide

example : splitBlank [97, 10, 10, 32, 98] = [[97], [32, 98]] := by decide

example : (ChunkText [97, 10, 10, 98] 1).map Chunk.id
    = [[99, 48, 48, 48, 49], [99, 48, 48, 48, 50]] := by decide

example : (ChunkText [97, 10, 98] 1).map Chunk.text = [[97, 10, 98]] := by decide
